import Mathlib

/-!
Verification development for the denul-simulator repository
(`src/simulator.py`).

The simulator is a discrete-event simulation of users in a peer-to-peer
network: a scale-free initial graph is generated with the
Barabasi-Albert model (`prepare_network`), each active user performs
three stochastic actions per tick (`retrieve_data`, `share_data`,
`quit_application`), the population grows every tick (`add_users`), and
aggregate statistics are collected every ten ticks (`save_stats`).

The embedding below mirrors the Python source.  Randomness is made
explicit: every call of `random.random()` reads the next element of a
stream of rationals (`RStream.fs`), and every integer draw
(`random.choice`, `random.randrange`) reads the next element of a
stream of naturals (`RStream.ns`); a position record (`RPos`) is
threaded through all operations.  Users are identified by the order of
their creation (`Env.nextId` is the next fresh identifier) and the map
`Env.users` holds every user record ever created; identifiers at or
above `nextId` map to the inert record `noUser`.  The unbounded
rejection-sampling loop of `_random_subset` is modelled with explicit
fuel: a `none` result means the loop has not terminated within the
given number of draws (the Python code would still be spinning, or has
crashed on an empty sequence).
-/

namespace Denul

/-- One user record, with exactly the mutable fields of the Python
class `User` (`src/simulator.py` lines 104-127).  `friends` is a list
of user identifiers, `left` is an integer because the Python code uses
the sentinel `-1` while the user is active. -/
structure User where
  friends : List Nat
  shares : Nat
  share_ops : Nat
  last_share : Nat
  active : Bool
  joined : Nat
  left : Int
  shares_downloaded : Nat
  shares_received : Nat
deriving DecidableEq

/-- The inert record standing for an identifier that has not been
allocated yet.  It is never placed in any population list. -/
def noUser : User :=
  { friends := [], shares := 0, share_ops := 0, last_share := 0,
    active := false, joined := 0, left := -1,
    shares_downloaded := 0, shares_received := 0 }

/-- `User.__init__`: a fresh user joining at logical time `now`.  Note
that `last_share` is initialised to `0` regardless of the join time
(line 117 of the source). -/
def initUser (now : Nat) : User :=
  { friends := [], shares := 0, share_ops := 0, last_share := 0,
    active := true, joined := now, left := -1,
    shares_downloaded := 0, shares_received := 0 }

/-- The simulation environment: logical time, the allocation counter,
the map of all user records, and the three population lists of the
Python `env` object. -/
structure Env where
  now : Nat
  nextId : Nat
  users : Nat → User
  active_users : List Nat
  inactive_users : List Nat
  repeated_nodes : List Nat

/-- The explicit random source: a stream of rationals standing for the
values of `random.random()` (each in `[0,1)` in Python) and a stream of
naturals standing for the integer draws of `random.choice` and
`random.randrange`. -/
structure RStream where
  fs : Nat → ℚ
  ns : Nat → Nat

/-- Read positions into the two streams. -/
structure RPos where
  fp : Nat
  np : Nat
deriving DecidableEq

/-- Draw the next float. -/
def nextF (s : RStream) (p : RPos) : ℚ × RPos :=
  (s.fs p.fp, { p with fp := p.fp + 1 })

/-- Draw the next integer. -/
def nextN (s : RStream) (p : RPos) : Nat × RPos :=
  (s.ns p.np, { p with np := p.np + 1 })

/-- Overwrite the record of one user identifier. -/
def setUser (e : Env) (id : Nat) (u : User) : Env :=
  { e with users := Function.update e.users id u }

/-- `random.choice(seq)` given the integer draw `d`: the element at
index `d % seq.length`. -/
def choiceAt (seq : List Nat) (d : Nat) : Nat :=
  seq.getD (d % seq.length) 0

/-- The loop body of `_random_subset` (`src/simulator.py` lines
93-98): repeatedly draw a uniformly random element of `seq` and insert
it into the accumulator if it refers to an active user, until the
accumulator holds `k` elements.  The Python loop is unbounded; `fuel`
bounds the number of draws in the embedding and `none` means the loop
is still spinning when the fuel runs out (or `random.choice` was
called on an empty sequence, which raises in Python). -/
def randomSubsetAux (users : Nat → User) (seq : List Nat) (k : Nat) :
    Nat → Finset Nat → RStream → RPos → Option (Finset Nat × RPos)
  | fuel, acc, s, p =>
    if k ≤ acc.card then some (acc, p)
    else
      match fuel with
      | 0 => none
      | Nat.succ f =>
        if seq.isEmpty then none
        else
          let dp := nextN s p
          let x := choiceAt seq dp.1
          let acc' := if (users x).active then insert x acc else acc
          randomSubsetAux users seq k f acc' s dp.2

/-- `_random_subset(seq, m)`: `m` unique active elements of `seq`. -/
def randomSubset (users : Nat → User) (fuel : Nat) (seq : List Nat)
    (k : Nat) (s : RStream) (p : RPos) : Option (Finset Nat × RPos) :=
  randomSubsetAux users seq k fuel ∅ s p

/-- `User.retrieve_threshold` (line 135). -/
def retrieveThreshold : ℚ := 1/2

/-- `User.share_threshold` (line 139): `0.1 + (env.now - last_share) * 0.1`. -/
def shareThreshold (now : Nat) (u : User) : ℚ :=
  1/10 + ((now : ℚ) - (u.last_share : ℚ)) * (1/10)

/-- `User.quit_threshold` (line 144). -/
def quitThreshold : ℚ := 1/100

/-- `User.retrieve_data` (lines 154-158): with probability
`retrieve_threshold`, drain `shares_received` into
`shares_downloaded`. -/
def retrieveData (e : Env) (id : Nat) (s : RStream) (p : RPos) :
    Env × RPos :=
  let rp := nextF s p
  if rp.1 < retrieveThreshold then
    let u := e.users id
    (setUser e id { u with
        shares_downloaded := u.shares_downloaded + u.shares_received,
        shares_received := 0 }, rp.2)
  else (e, rp.2)

/-- The friend loop of `share_data` (lines 173-174): increment
`shares_received` of every entry of the friends list, in order. -/
def bumpReceived (e : Env) (fr : List Nat) : Env :=
  fr.foldl (fun acc f =>
    setUser acc f { acc.users f with
      shares_received := (acc.users f).shares_received + 1 }) e

/-- `User.share_data` (lines 160-174): with probability
`share_threshold`, flush the inbox, increment `shares` by one plus the
length of the friends list, increment `share_ops`, stamp `last_share`,
and increment `shares_received` of every entry of the friends list. -/
def shareData (e : Env) (id : Nat) (s : RStream) (p : RPos) :
    Env × RPos :=
  let rp := nextF s p
  let u := e.users id
  if rp.1 < shareThreshold e.now u then
    let u' := { u with
      shares_downloaded := u.shares_downloaded + u.shares_received,
      shares_received := 0,
      shares := u.shares + 1 + u.friends.length,
      share_ops := u.share_ops + 1,
      last_share := e.now }
    (bumpReceived (setUser e id u') u.friends, rp.2)
  else (e, rp.2)

/-- `User.quit_application` (lines 176-183): with probability
`quit_threshold`, deactivate, stamp `left`, append to
`inactive_users` and remove from `active_users`. -/
def quitApplication (e : Env) (id : Nat) (s : RStream) (p : RPos) :
    Env × RPos :=
  let rp := nextF s p
  if rp.1 < quitThreshold then
    let u := e.users id
    let e1 := setUser e id { u with active := false, left := (e.now : Int) }
    ({ e1 with
        inactive_users := e1.inactive_users ++ [id],
        active_users := e1.active_users.erase id }, rp.2)
  else (e, rp.2)

/-- One iteration of `User.run` (lines 146-152) for a single user: the
three actions in order, guarded by the `while self.active` loop
condition (a process whose user is inactive wakes once more and does
nothing). -/
def actUser (e : Env) (id : Nat) (s : RStream) (p : RPos) : Env × RPos :=
  if (e.users id).active then
    let r1 := retrieveData e id s p
    let r2 := shareData r1.1 id s r1.2
    quitApplication r2.1 id s r2.2
  else (e, p)

/-- Run the per-tick action of every user of the list, in order. -/
def actList (e : Env) (ids : List Nat) (s : RStream) (p : RPos) :
    Env × RPos :=
  ids.foldl (fun ep id => actUser ep.1 id s ep.2) (e, p)

/-- Append `nid` to the friends list of every entry of `l`, in order
(the `for user in targets` and `for friend in newfriends` loops). -/
def addFriendAll (e : Env) (l : List Nat) (nid : Nat) : Env :=
  l.foldl (fun acc t =>
    setUser acc t { acc.users t with
      friends := (acc.users t).friends ++ [nid] }) e

/-- Node creation inside `prepare_network` (lines 67-68): create the
user and append it to `active_users` immediately. -/
def prepAddNode (e : Env) : Env × Nat :=
  let nid := e.nextId
  ({ setUser e nid (initUser e.now) with
      nextId := nid + 1,
      active_users := e.active_users ++ [nid] }, nid)

/-- The edge-insertion block of one `prepare_network` iteration (lines
69-75): give the new node the whole targets list as friends, append
the new node to every target, and extend `repeated_nodes` with the
targets and `m` copies of the new node. -/
def prepConnect (m : Nat) (e : Env) (nid : Nat) (tg : List Nat) : Env :=
  let e1 := setUser e nid { e.users nid with
    friends := (e.users nid).friends ++ tg }
  let e2 := addFriendAll e1 tg nid
  { e2 with repeated_nodes := e2.repeated_nodes ++ tg ++ List.replicate m nid }

/-- The error taxonomy of §7 of the specification.
`invalidParameter` is the `AssertionError` of line 52;
`exhausted` stands for a sampling loop that has not produced a result
within its fuel (the Python source would still be looping). -/
inductive SimErr where
  | invalidParameter
  | exhausted
deriving DecidableEq

/-- The `m` seed users of `prepare_network` (line 58). -/
def seedEnv (m : Nat) : Env :=
  { now := 0, nextId := m,
    users := fun i => if i < m then initUser 0 else noUser,
    active_users := List.range m,
    inactive_users := [],
    repeated_nodes := [] }

/-- Iterations of the `while source < n` loop after the first one,
each receiving the freshly sampled targets of the previous
iteration. -/
def prepLoop (m fuel : Nat) :
    Nat → Env → List Nat → RStream → RPos → Option (Env × RPos)
  | 0, e, _, _, p => some (e, p)
  | Nat.succ k, e, tg, s, p =>
    let en := prepAddNode e
    let e3 := prepConnect m en.1 en.2 tg
    match randomSubset e3.users fuel e3.repeated_nodes m s p with
    | none => none
    | some tp => prepLoop m fuel k e3 (tp.1.sort (· ≤ ·)) s tp.2

/-- The construction part of `prepare_network(env, n, m)` (lines
54-80), run after the parameter check.  The first loop iteration is
special: line 60 binds `targets` to the very list object
`env.active_users`, so after the `append` of line 68 the targets of
the first iteration include the new node itself — the new node is
connected to itself.  From the second iteration on, `targets` is a
freshly sampled set and the aliasing is gone; sampled target sets are
laid out in ascending order. -/
def prepareBody (n m fuel : Nat) (s : RStream) (p : RPos) :
    Option (Env × RPos) :=
  match n - m with
  | 0 => some (seedEnv m, p)
  | Nat.succ k =>
    let en := prepAddNode (seedEnv m)
    let e3 := prepConnect m en.1 en.2 en.1.active_users
    match randomSubset e3.users fuel e3.repeated_nodes m s p with
    | none => none
    | some tp => prepLoop m fuel k e3 (tp.1.sort (· ≤ ·)) s tp.2

/-- `prepare_network(env, n, m)` (lines 20-80): the parameter check of
lines 51-53 (the `AssertionError`, named `invalidParameter` in the
error taxonomy of the specification) followed by the graph
construction. -/
def prepareNetwork (n m fuel : Nat) (s : RStream) (p : RPos) :
    Except SimErr (Env × RPos) :=
  if m < 1 ∨ n ≤ m then Except.error SimErr.invalidParameter
  else
    match prepareBody n m fuel s p with
    | none => Except.error SimErr.exhausted
    | some ep => Except.ok ep

/-- Simulation parameters: initial population size `n0`
(`INITIAL_USERS`), attachment parameter `m`, number of rounds
(`SIMULATION_ROUNDS`), and the fuel bound for the sampling loops. -/
structure Config where
  n0 : Nat
  m : Nat
  rounds : Nat
  fuel : Nat

/-- `newuser = User(env)` inside `add_users` (line 205): allocate the
next identifier with a fresh record; the user is not yet in
`active_users`. -/
def spawn (e : Env) : Env :=
  { setUser e e.nextId (initUser e.now) with nextId := e.nextId + 1 }

/-- The deterministic tail of the `add_users` loop body (lines
209-214), after the role model `rm` and the new friends `nfl` have
been sampled: insert the edges in both directions, extend
`repeated_nodes` (the `newuser` multiplicity reads the length of the
role model friends list AFTER the edge insertion, as line 212 does),
and append the new user to `active_users`. -/
def attach (eN : Env) (nid rm : Nat) (nfl : List Nat) : Env :=
  let e1 := setUser eN nid { eN.users nid with
    friends := (eN.users nid).friends ++ nfl }
  let e2 := addFriendAll e1 nfl nid
  let e3 := { e2 with repeated_nodes :=
    e2.repeated_nodes
      ++ List.replicate ((e2.users rm).friends.length) nid
      ++ nfl }
  { e3 with active_users := e3.active_users ++ [nid] }

/-- The body of the `for` loop of `add_users` (lines 205-214): create
a user, pick a role model among the active users, sample as many
unique active friends from `repeated_nodes` as the role model has,
and attach.  Sampled sets are laid out in ascending order. -/
def addOneUser (fuel : Nat) (e : Env) (s : RStream) (p : RPos) :
    Option (Env × RPos) :=
  match randomSubset (spawn e).users fuel (spawn e).active_users 1 s p with
  | none => none
  | some rp =>
    match rp.1.sort (· ≤ ·) with
    | [] => none
    | rm :: _ =>
      match randomSubset (spawn e).users fuel (spawn e).repeated_nodes
          (((spawn e).users rm).friends.length) s rp.2 with
      | none => none
      | some np =>
        some (attach (spawn e) e.nextId rm (np.1.sort (· ≤ ·)), np.2)

/-- Add `g` users one after the other. -/
def addUsersLoop (fuel : Nat) :
    Nat → Env → RStream → RPos → Option (Env × RPos)
  | 0, e, _, p => some (e, p)
  | Nat.succ g, e, s, p =>
    match addOneUser fuel e s p with
    | none => none
    | some ep => addUsersLoop fuel g ep.1 s ep.2

/-- `add_users(env)` (lines 199-214): draw the number of newcomers
uniformly from `[n0/100, n0*5/100)` (`random.randrange` raises when
the range is empty, modelled as `none`) and add them. -/
def addUsers (cfg : Config) (e : Env) (s : RStream) (p : RPos) :
    Option (Env × RPos) :=
  let low := cfg.n0 / 100
  let high := cfg.n0 * 5 / 100
  if low < high then
    let dp := nextN s p
    addUsersLoop cfg.fuel (low + dp.1 % (high - low)) e s dp.2
  else none

/-- The `repeated_nodes` compaction of line 283: drop entries whose
user is inactive. -/
def compact (e : Env) : Env :=
  { e with repeated_nodes :=
      e.repeated_nodes.filter (fun id => (e.users id).active) }

/-- The per-snapshot aggregate record of `save_stats` (lines 249-260).
`friend_distribution` records the degree of every active user, in
list order; the Python `Counter` is exactly the multiset of these
degrees. -/
structure Stats where
  users : Nat
  users_active : Nat
  users_inactive : Nat
  shares : Nat
  share_ops : Nat
  share_noretr : Int
  share_neverretr : Nat
  friends : Nat
  friends_inactive : Nat
  friend_distribution : List Nat
deriving DecidableEq

/-- `save_stats(env)` (lines 217-260), field by field.  Note the
accumulation of `neverdownload`: for every active user the source adds
`user.share_ops` (line 231), and for every inactive user it adds
`user.shares_received` (line 242).  `nodownload` accumulates
`user.shares - user.shares_downloaded`, which can be negative in
Python, hence the integer sum. -/
def saveStats (e : Env) : Stats :=
  let act := e.active_users.map (fun id => e.users id)
  let inact := e.inactive_users.map (fun id => e.users id)
  { users := act.length + inact.length,
    users_active := act.length,
    users_inactive := inact.length,
    shares := (act.map (fun u => u.shares)).sum
      + (inact.map (fun u => u.shares)).sum,
    share_ops := (act.map (fun u => u.share_ops)).sum
      + (inact.map (fun u => u.share_ops)).sum,
    share_noretr :=
      (act.map (fun u => (u.shares : Int) - (u.shares_downloaded : Int))).sum
      + (inact.map (fun u => (u.shares : Int) - (u.shares_downloaded : Int))).sum,
    share_neverretr := (act.map (fun u => u.share_ops)).sum
      + (inact.map (fun u => u.shares_received)).sum,
    friends := (act.map (fun u => u.friends.length)).sum
      + (inact.map (fun u => u.friends.length)).sum,
    friends_inactive :=
      (act.map (fun u => (u.friends.filter
        (fun f => !(e.users f).active)).length)).sum
      + (inact.map (fun u => (u.friends.filter
        (fun f => !(e.users f).active)).length)).sum,
    friend_distribution :=
      e.active_users.map (fun id => (e.users id).friends.length) }

/-- The aggregate the specification asks for in the
"shares never downloaded" column: the received-but-still-pending
shares summed over all users, active and inactive.  Modelled from the
words of the specification for comparison against `saveStats`. -/
def specNeverDownloaded (e : Env) : Nat :=
  ((e.active_users ++ e.inactive_users).map
    (fun id => (e.users id).shares_received)).sum

/-- Tick zero: every initial user acts once; no statistics boundary
and no growth precede it (`run`, lines 272-284). -/
def tickZero (e : Env) (s : RStream) (p : RPos) : Env × RPos :=
  actList e e.active_users s p

/-- The remainder of a tick after its first user has acted: the
growth phase, the actions of the remaining users of the tick-start
snapshot, and the actions of the users created this tick (their
processes are scheduled behind every pending timeout). -/
def tickRest (cfg : Config) (e1 : Env) (s : RStream) (p : RPos)
    (rest : List Nat) (newBase : Nat) : Option (Env × RPos) :=
  match addUsers cfg e1 s p with
  | none => none
  | some r2 =>
    let r3 := actList r2.1 rest s r2.2
    let newIds := (List.range (r2.1.nextId - newBase)).map
      (fun i => i + newBase)
    some (actList r3.1 newIds s r3.2)

/-- One later tick of `run` (lines 274-288): advance the clock, let
the first scheduled user act, call `add_users`, then the rest of the
tick. -/
def doTick (cfg : Config) (e : Env) (s : RStream) (p : RPos) :
    Option (Env × RPos) :=
  match e.active_users with
  | [] => some ({ e with now := e.now + 1 }, p)
  | a :: rest =>
    let r1 := actUser { e with now := e.now + 1 } a s p
    tickRest cfg r1.1 s r1.2 rest r1.1.nextId

/-- The statistics / compaction boundary followed by one tick, and the
loop of `run` over the remaining rounds.  A snapshot is taken whenever
the next tick number is divisible by ten, exactly before that tick
runs; when no active user is left the event queue is empty and the
loop ends. -/
def simLoop (cfg : Config) :
    Nat → Env → RStream → RPos → List (Nat × Stats) →
    Option (List (Nat × Stats))
  | 0, _, _, _, acc => some acc.reverse
  | Nat.succ k, e, s, p, acc =>
    if e.active_users.isEmpty then some acc.reverse
    else
      let t := e.now + 1
      let ae := if t % 10 == 0
        then ((t, saveStats e) :: acc, compact e)
        else (acc, e)
      match doTick cfg ae.2 s p with
      | none => none
      | some ep => simLoop cfg k ep.1 s ep.2 ae.1

/-- `run(iteration)` (lines 263-289): build the initial network,
record the tick-0 snapshot, run tick zero, then the remaining
`rounds - 1` ticks with their boundaries.  The result is the mapping
from snapshot time to snapshot, as an ordered association list. -/
def simRun (cfg : Config) (s : RStream) : Option (List (Nat × Stats)) :=
  match prepareNetwork cfg.n0 cfg.m cfg.fuel s ⟨0, 0⟩ with
  | Except.error _ => none
  | Except.ok ep =>
    let s0 := (0, saveStats ep.1)
    let r1 := tickZero ep.1 s ep.2
    simLoop cfg (cfg.rounds - 1) r1.1 s r1.2 [s0]

/-! ### Shared concrete inputs for witnesses and counterexamples -/

/-- The all-zero random source: every float draw is `0` (so every
Bernoulli trial fires) and every integer draw is `0`. -/
def sZ : RStream := ⟨fun _ => 0, fun _ => 0⟩

/-- The start position into the streams. -/
def pZ : RPos := ⟨0, 0⟩

/-- A user map with no active user anywhere. -/
def usersNone : Nat → User := fun _ => noUser

/-- A three-node initial network built by the embedded
`prepare_network` with `n = 3`, `m = 1` on the all-zero stream. -/
def prepW : Except SimErr (Env × RPos) := prepareNetwork 3 1 4 sZ pZ

/-- The environment produced by `prepW`.  Concretely its friends
lists are `0 ↦ [1, 2]`, `1 ↦ [0, 1, 1]`, `2 ↦ [0]`: node `1`, the
first node attached after the seed, carries a double self-loop caused
by the `targets = env.active_users` aliasing of line 60. -/
def envW : Env :=
  match prepW with
  | Except.ok ep => ep.1
  | Except.error _ => seedEnv 0

/-- The stream position after `prepW`. -/
def posW : RPos :=
  match prepW with
  | Except.ok ep => ep.2
  | Except.error _ => pZ

/-- A two-node network built with `n = 2`, `m = 1`: its node `1` has
the friends list `[0, 1, 1]` produced by the aliasing of line 60. -/
def prep2 : Except SimErr (Env × RPos) := prepareNetwork 2 1 4 sZ pZ

/-- The environment produced by `prep2`. -/
def env2 : Env :=
  match prep2 with
  | Except.ok ep => ep.1
  | Except.error _ => seedEnv 0

/-- A float stream on which, during tick zero of `envW`, every user
retrieves and shares but nobody quits: draws number `2, 5, 8, …` are
the quit draws of the three users and get `1/2 ≥ 0.01`, all other
draws get `0`. -/
def sC1 : RStream := ⟨fun i => if i % 3 == 2 then 1/2 else 0, fun _ => 0⟩

/-- The population state after tick zero of `envW` under `sC1`: all
three users are still active and each has performed exactly one share
operation. -/
def envC1 : Env := (tickZero envW sC1 pZ).1

/-- A hand-built two-user population: users `0` and `1` are active
mutual friends and `repeated_nodes` holds one entry per edge
endpoint. -/
def envC8 : Env :=
  { now := 0, nextId := 2,
    users := fun i =>
      if i = 0 then { noUser with active := true, friends := [1] }
      else if i = 1 then { noUser with active := true, friends := [0] }
      else noUser,
    active_users := [0, 1],
    inactive_users := [],
    repeated_nodes := [0, 1] }

/-- The environment after one growth step on `envC8` with the
all-zero stream (the role model is user `0` and the sampled friend set
is `{0}`, the role model itself). -/
def envC8' : Env :=
  match addOneUser 4 envC8 sZ pZ with
  | some ep => ep.1
  | none => envC8

/-- The stream position after that growth step. -/
def posC8' : RPos :=
  match addOneUser 4 envC8 sZ pZ with
  | some ep => ep.2
  | none => pZ

/-- A single never-shared user at logical time 9. -/
def envC9 : Env :=
  { now := 9, nextId := 1, users := fun _ => initUser 0,
    active_users := [0], inactive_users := [], repeated_nodes := [] }

/-- The configuration of the small concrete runs: three initial
users, `m = 1`. -/
def cfgW : Config := ⟨3, 1, 2, 4⟩

/-! ### The well-formedness invariant of the population -/

/-- The population invariant maintained by every operation of the
simulator: the activity flags and `left` stamps agree with the two
population lists, the lists are duplicate-free and disjoint and
together cover exactly the allocated identifiers, every identifier
stored anywhere is allocated, unallocated identifiers carry the inert
record, and every join stamp is in the past. -/
structure WF (e : Env) : Prop where
  actA : ∀ id ∈ e.active_users,
    (e.users id).active = true ∧ (e.users id).left = -1
  actI : ∀ id ∈ e.inactive_users,
    (e.users id).active = false ∧
    ((e.users id).joined : Int) ≤ (e.users id).left
  disj : ∀ id ∈ e.active_users, id ∉ e.inactive_users
  ndA : e.active_users.Nodup
  ndI : e.inactive_users.Nodup
  complete : ∀ id, id < e.nextId →
    id ∈ e.active_users ∨ id ∈ e.inactive_users
  bndA : ∀ id ∈ e.active_users, id < e.nextId
  bndI : ∀ id ∈ e.inactive_users, id < e.nextId
  bndR : ∀ id ∈ e.repeated_nodes, id < e.nextId
  bndF : ∀ i, ∀ j ∈ (e.users i).friends, j < e.nextId
  hi : ∀ i, e.nextId ≤ i → e.users i = noUser
  joinLe : ∀ i, (e.users i).joined ≤ e.now

/-- The action-relevant fields of one user are unchanged between two
states: everything a user writes by acting itself (`shares_received`
excepted, which friends may still increment, and `friends`, which
population growth may still extend). -/
def frozen (e e' : Env) (id : Nat) : Prop :=
  (e'.users id).shares = (e.users id).shares ∧
  (e'.users id).share_ops = (e.users id).share_ops ∧
  (e'.users id).last_share = (e.users id).last_share ∧
  (e'.users id).shares_downloaded = (e.users id).shares_downloaded ∧
  (e'.users id).active = (e.users id).active ∧
  (e'.users id).joined = (e.users id).joined ∧
  (e'.users id).left = (e.users id).left

/-- Between two states, every friends list of the first is an initial
segment of the corresponding list of the second: no entry is ever
removed, entries are only appended. -/
def friendsGrow (e e' : Env) : Prop :=
  ∀ id, (e.users id).friends <+: (e'.users id).friends

/-- One observable step of the main loop of `run`: tick zero, the
compaction boundary, or a full later tick (with its growth phase). -/
inductive SimStep (cfg : Config) (s : RStream) :
    Env → RPos → Env → RPos → Prop where
  | tick0 (e : Env) (p : RPos) (e' : Env) (p' : RPos) :
      tickZero e s p = (e', p') → SimStep cfg s e p e' p'
  | bound (e : Env) (p : RPos) : SimStep cfg s e p (compact e) p
  | tick (e : Env) (p : RPos) (e' : Env) (p' : RPos) :
      doTick cfg e s p = some (e', p') → SimStep cfg s e p e' p'

/-- The states observable during a run: the prepared initial network
and everything reachable from it through the steps of the loop. -/
inductive Reach (cfg : Config) (s : RStream) : Env → RPos → Prop where
  | init (p0 : RPos) (e : Env) (p : RPos) :
      prepareNetwork cfg.n0 cfg.m cfg.fuel s p0 = Except.ok (e, p) →
      Reach cfg s e p
  | step (e : Env) (p : RPos) (e' : Env) (p' : RPos) :
      Reach cfg s e p → SimStep cfg s e p e' p' → Reach cfg s e' p'

/-! ### Basic lemmas about the state operations -/

theorem setUser_users_self (e : Env) (id : Nat) (u : User) :
    (setUser e id u).users id = u := by
  simp [setUser]

theorem setUser_users_ne (e : Env) (id v : Nat) (u : User) (h : v ≠ id) :
    (setUser e id u).users v = e.users v := by
  simp [setUser, Function.update_noteq h]

@[simp] theorem setUser_now (e : Env) (id : Nat) (u : User) :
    (setUser e id u).now = e.now := rfl

@[simp] theorem setUser_nextId (e : Env) (id : Nat) (u : User) :
    (setUser e id u).nextId = e.nextId := rfl

@[simp] theorem setUser_active (e : Env) (id : Nat) (u : User) :
    (setUser e id u).active_users = e.active_users := rfl

@[simp] theorem setUser_inactive (e : Env) (id : Nat) (u : User) :
    (setUser e id u).inactive_users = e.inactive_users := rfl

@[simp] theorem setUser_repeated (e : Env) (id : Nat) (u : User) :
    (setUser e id u).repeated_nodes = e.repeated_nodes := rfl

theorem addFriendAll_shape (l : List Nat) (nid : Nat) (e : Env) :
    (addFriendAll e l nid).now = e.now ∧
    (addFriendAll e l nid).nextId = e.nextId ∧
    (addFriendAll e l nid).active_users = e.active_users ∧
    (addFriendAll e l nid).inactive_users = e.inactive_users ∧
    (addFriendAll e l nid).repeated_nodes = e.repeated_nodes := by
  induction l generalizing e with
  | nil => exact ⟨rfl, rfl, rfl, rfl, rfl⟩
  | cons t rest ih =>
    simpa [addFriendAll] using ih (setUser e t
      { e.users t with friends := (e.users t).friends ++ [nid] })

theorem addFriendAll_users (l : List Nat) (nid : Nat) (e : Env) (v : Nat) :
    (addFriendAll e l nid).users v =
      { e.users v with friends :=
          (e.users v).friends ++ List.replicate (l.count v) nid } := by
  induction l generalizing e with
  | nil => simp [addFriendAll]
  | cons t rest ih =>
    have step : addFriendAll e (t :: rest) nid =
        addFriendAll (setUser e t
          { e.users t with friends := (e.users t).friends ++ [nid] }) rest nid := by
      simp [addFriendAll]
    rw [step, ih]
    by_cases hv : v = t
    · subst hv
      rw [setUser_users_self]
      rw [List.count_cons_self]
      simp [List.replicate_succ, List.append_assoc]
    · rw [setUser_users_ne _ _ _ _ hv]
      rw [List.count_cons_of_ne hv]

theorem bumpReceived_shape (fr : List Nat) (e : Env) :
    (bumpReceived e fr).now = e.now ∧
    (bumpReceived e fr).nextId = e.nextId ∧
    (bumpReceived e fr).active_users = e.active_users ∧
    (bumpReceived e fr).inactive_users = e.inactive_users ∧
    (bumpReceived e fr).repeated_nodes = e.repeated_nodes := by
  induction fr generalizing e with
  | nil => exact ⟨rfl, rfl, rfl, rfl, rfl⟩
  | cons t rest ih =>
    simpa [bumpReceived] using ih (setUser e t
      { e.users t with shares_received := (e.users t).shares_received + 1 })

theorem bumpReceived_users (fr : List Nat) (e : Env) (v : Nat) :
    (bumpReceived e fr).users v =
      { e.users v with shares_received :=
          (e.users v).shares_received + fr.count v } := by
  induction fr generalizing e with
  | nil => simp [bumpReceived]
  | cons t rest ih =>
    have step : bumpReceived e (t :: rest) =
        bumpReceived (setUser e t
          { e.users t with shares_received :=
              (e.users t).shares_received + 1 }) rest := by
      simp [bumpReceived]
    rw [step, ih]
    by_cases hv : v = t
    · subst hv
      rw [setUser_users_self, List.count_cons_self]
      simp [Nat.add_assoc, Nat.add_comm 1]
    · rw [setUser_users_ne _ _ _ _ hv, List.count_cons_of_ne hv]

theorem setUser_users (e : Env) (id : Nat) (u : User) (v : Nat) :
    (setUser e id u).users v = if v = id then u else e.users v := by
  by_cases h : v = id
  · subst h; rw [setUser_users_self, if_pos rfl]
  · rw [setUser_users_ne _ _ _ _ h, if_neg h]

/-! ### Lemmas about the rejection sampler -/

theorem choiceAt_mem (seq : List Nat) (d : Nat) (h : seq ≠ []) :
    choiceAt seq d ∈ seq := by
  have hlen : 0 < seq.length := List.length_pos.mpr h
  have hlt : d % seq.length < seq.length := Nat.mod_lt _ hlen
  unfold choiceAt
  rw [List.getD_eq_getElem seq 0 hlt]
  exact List.getElem_mem hlt

theorem randomSubsetAux_insufficient (users : Nat → User) (seq : List Nat)
    (k : Nat) (s : RStream) :
    ∀ (fuel : Nat) (acc : Finset Nat) (p : RPos),
    (seq.filter (fun x => (users x).active)).toFinset.card < k →
    acc ⊆ (seq.filter (fun x => (users x).active)).toFinset →
    randomSubsetAux users seq k fuel acc s p = none := by
  intro fuel
  induction fuel with
  | zero =>
    intro acc p hcard hsub
    have hlt : acc.card < k :=
      lt_of_le_of_lt (Finset.card_le_card hsub) hcard
    unfold randomSubsetAux
    rw [if_neg (by omega)]
  | succ f ih =>
    intro acc p hcard hsub
    have hlt : acc.card < k :=
      lt_of_le_of_lt (Finset.card_le_card hsub) hcard
    unfold randomSubsetAux
    rw [if_neg (by omega)]
    by_cases hemp : seq.isEmpty
    · simp [hemp]
    · simp only [hemp, Bool.false_eq_true, if_false]
      have hne : seq ≠ [] := by
        intro hn; rw [hn] at hemp; simp at hemp
      set x := choiceAt seq ((nextN s p).1) with hx
      by_cases hact : (users x).active
      · have hmem : x ∈ (seq.filter (fun y => (users y).active)).toFinset := by
          rw [List.mem_toFinset, List.mem_filter]
          exact ⟨choiceAt_mem seq _ hne, by simpa using hact⟩
        have hsub' : insert x acc ⊆
            (seq.filter (fun y => (users y).active)).toFinset :=
          Finset.insert_subset hmem hsub
        simp only [hact, if_true]
        exact ih (insert x acc) _ hcard hsub'
      · simp only [hact, if_false]
        exact ih acc _ hcard hsub

theorem randomSubsetAux_sound (users : Nat → User) (seq : List Nat)
    (k : Nat) (s : RStream) :
    ∀ (fuel : Nat) (acc : Finset Nat) (p : RPos) (t : Finset Nat) (p' : RPos),
    randomSubsetAux users seq k fuel acc s p = some (t, p') →
    acc.card ≤ k →
    t.card = k ∧ ∀ x ∈ t, x ∈ acc ∨ ((users x).active = true ∧ x ∈ seq) := by
  intro fuel
  induction fuel with
  | zero =>
    intro acc p t p' h hle
    unfold randomSubsetAux at h
    by_cases hk : k ≤ acc.card
    · rw [if_pos hk] at h
      obtain ⟨ht, _⟩ := by simpa using h
      subst ht
      exact ⟨le_antisymm hle hk, fun x hx => Or.inl hx⟩
    · rw [if_neg hk] at h
      exact absurd h (by simp)
  | succ f ih =>
    intro acc p t p' h hle
    unfold randomSubsetAux at h
    by_cases hk : k ≤ acc.card
    · rw [if_pos hk] at h
      obtain ⟨ht, _⟩ := by simpa using h
      subst ht
      exact ⟨le_antisymm hle hk, fun x hx => Or.inl hx⟩
    · rw [if_neg hk] at h
      by_cases hemp : seq.isEmpty
      · simp [hemp] at h
      · simp only [hemp, Bool.false_eq_true, if_false] at h
        have hne : seq ≠ [] := by
          intro hn; rw [hn] at hemp; simp at hemp
        set x := choiceAt seq ((nextN s p).1) with hx
        by_cases hact : (users x).active
        · simp only [hact, if_true] at h
          have hcard : (insert x acc).card ≤ k := by
            have := Finset.card_insert_le x acc
            omega
          obtain ⟨h1, h2⟩ := ih (insert x acc) _ t p' h hcard
          refine ⟨h1, fun y hy => ?_⟩
          rcases h2 y hy with hy' | hy'
          · rcases Finset.mem_insert.mp hy' with rfl | hy''
            · exact Or.inr ⟨by simpa using hact, choiceAt_mem seq _ hne⟩
            · exact Or.inl hy''
          · exact Or.inr hy'
        · simp only [hact, if_false] at h
          exact ih acc _ t p' h (by omega)

theorem randomSubset_sound (users : Nat → User) (fuel : Nat)
    (seq : List Nat) (k : Nat) (s : RStream) (p : RPos)
    (t : Finset Nat) (p' : RPos)
    (h : randomSubset users fuel seq k s p = some (t, p')) :
    t.card = k ∧ ∀ x ∈ t, (users x).active = true ∧ x ∈ seq := by
  obtain ⟨h1, h2⟩ := randomSubsetAux_sound users seq k s fuel ∅ p t p' h
    (by simp)
  refine ⟨h1, fun x hx => ?_⟩
  rcases h2 x hx with hx' | hx'
  · exact absurd hx' (by simp)
  · exact hx'

/-! ### Preservation of the population invariant -/

theorem WF_update_sameShape (e : Env) (h : WF e) (id : Nat) (u' : User)
    (hid : id < e.nextId)
    (hfr : u'.friends = (e.users id).friends)
    (hac : u'.active = (e.users id).active)
    (hlf : u'.left = (e.users id).left)
    (hjn : u'.joined = (e.users id).joined) :
    WF (setUser e id u') := by
  refine ⟨?_, ?_, ?_, ?_, ?_, ?_, ?_, ?_, ?_, ?_, ?_, ?_⟩
  · intro v hv
    rw [setUser_active] at hv
    rw [setUser_users]
    split
    · next heq =>
      subst heq
      rw [hac, hlf]
      exact h.actA v hv
    · exact h.actA v hv
  · intro v hv
    rw [setUser_inactive] at hv
    rw [setUser_users]
    split
    · next heq =>
      subst heq
      rw [hac, hlf, hjn]
      exact h.actI v hv
    · exact h.actI v hv
  · intro v hv
    rw [setUser_active] at hv
    rw [setUser_inactive]
    exact h.disj v hv
  · rw [setUser_active]; exact h.ndA
  · rw [setUser_inactive]; exact h.ndI
  · intro v hv
    rw [setUser_nextId] at hv
    rw [setUser_active, setUser_inactive]
    exact h.complete v hv
  · intro v hv
    rw [setUser_active] at hv
    rw [setUser_nextId]
    exact h.bndA v hv
  · intro v hv
    rw [setUser_inactive] at hv
    rw [setUser_nextId]
    exact h.bndI v hv
  · intro v hv
    rw [setUser_repeated] at hv
    rw [setUser_nextId]
    exact h.bndR v hv
  · intro i j hj
    rw [setUser_nextId]
    rw [setUser_users] at hj
    by_cases hiq : i = id
    · rw [if_pos hiq, hfr] at hj
      exact h.bndF id j hj
    · rw [if_neg hiq] at hj
      exact h.bndF i j hj
  · intro i hge
    rw [setUser_nextId] at hge
    rw [setUser_users, if_neg (by omega)]
    exact h.hi i hge
  · intro i
    rw [setUser_now]
    rw [setUser_users]
    split
    · next heq => subst heq; rw [hjn]; exact h.joinLe i
    · exact h.joinLe i

theorem retrieveData_WF (e : Env) (h : WF e) (id : Nat) (s : RStream)
    (p : RPos) (hid : id < e.nextId) :
    WF (retrieveData e id s p).1 := by
  unfold retrieveData
  by_cases hc : (nextF s p).1 < retrieveThreshold
  · simp only [hc, if_true]
    exact WF_update_sameShape e h id _ hid rfl rfl rfl rfl
  · simp only [hc, if_false]
    exact h

theorem bumpReceived_WF (fr : List Nat) (e : Env) (h : WF e)
    (hfr : ∀ f ∈ fr, f < e.nextId) :
    WF (bumpReceived e fr) := by
  induction fr generalizing e with
  | nil => exact h
  | cons t rest ih =>
    have step : bumpReceived e (t :: rest) =
        bumpReceived (setUser e t
          { e.users t with shares_received :=
              (e.users t).shares_received + 1 }) rest := by
      simp [bumpReceived]
    rw [step]
    have ht : t < e.nextId := hfr t (List.mem_cons_self t rest)
    have h1 : WF (setUser e t { e.users t with shares_received :=
        (e.users t).shares_received + 1 }) :=
      WF_update_sameShape e h t _ ht rfl rfl rfl rfl
    exact ih _ h1 (fun f hf => by
      rw [setUser_nextId]
      exact hfr f (List.mem_cons_of_mem t hf))

theorem shareData_WF (e : Env) (h : WF e) (id : Nat) (s : RStream)
    (p : RPos) (hid : id < e.nextId) :
    WF (shareData e id s p).1 := by
  unfold shareData
  by_cases hc : (nextF s p).1 < shareThreshold e.now (e.users id)
  · simp only [hc, if_true]
    have h1 : WF (setUser e id { e.users id with
        shares_downloaded :=
          (e.users id).shares_downloaded + (e.users id).shares_received,
        shares_received := 0,
        shares := (e.users id).shares + 1 + (e.users id).friends.length,
        share_ops := (e.users id).share_ops + 1,
        last_share := e.now }) :=
      WF_update_sameShape e h id _ hid rfl rfl rfl rfl
    exact bumpReceived_WF _ _ h1 (fun f hf => by
      rw [setUser_nextId]
      exact h.bndF id f hf)
  · simp only [hc, if_false]
    exact h

theorem quitApplication_WF (e : Env) (h : WF e) (id : Nat) (s : RStream)
    (p : RPos) (hact : (e.users id).active = true) :
    WF (quitApplication e id s p).1 := by
  have hid : id < e.nextId := by
    by_contra hge
    push_neg at hge
    rw [h.hi id hge] at hact
    simp [noUser] at hact
  have hidA : id ∈ e.active_users := by
    rcases h.complete id hid with hA | hI
    · exact hA
    · exact absurd (h.actI id hI).1 (by simp [hact])
  have hnotI : id ∉ e.inactive_users := h.disj id hidA
  unfold quitApplication
  by_cases hc : (nextF s p).1 < quitThreshold
  · simp only [hc, if_true]
    refine ⟨?_, ?_, ?_, ?_, ?_, ?_, ?_, ?_, ?_, ?_, ?_, ?_⟩
    · intro v hv
      simp only [setUser_active] at hv
      have hv' : v ∈ e.active_users := List.mem_of_mem_erase hv
      have hvne : v ≠ id := ((h.ndA.mem_erase_iff).mp hv).1
      simp only [setUser_users_ne _ _ _ _ hvne]
      exact h.actA v hv'
    · intro v hv
      simp only [setUser_inactive] at hv
      rcases List.mem_append.mp hv with hv' | hv'
      · have hvne : v ≠ id := by
          intro hEq; subst hEq; exact hnotI hv'
        simp only [setUser_users_ne _ _ _ _ hvne]
        exact h.actI v hv'
      · have hEq : v = id := by simpa using hv'
        subst hEq
        simp only [setUser_users_self]
        refine ⟨by simp, ?_⟩
        have := h.joinLe v
        exact_mod_cast this
    · intro v hv
      simp only [setUser_active] at hv
      simp only [setUser_inactive]
      have hv' : v ∈ e.active_users := List.mem_of_mem_erase hv
      have hvne : v ≠ id := ((h.ndA.mem_erase_iff).mp hv).1
      intro hmem
      rcases List.mem_append.mp hmem with hm | hm
      · exact h.disj v hv' hm
      · exact hvne (by simpa using hm)
    · simp only [setUser_active]
      exact h.ndA.erase id
    · simp only [setUser_inactive]
      rw [List.nodup_append]
      exact ⟨h.ndI, List.nodup_singleton id,
        by intro a ha hb; exact hnotI (by rw [show a = id by simpa using hb] at ha; exact ha)⟩
    · intro v hv
      simp only [setUser_nextId] at hv
      simp only [setUser_active, setUser_inactive]
      by_cases hvq : v = id
      · subst hvq
        exact Or.inr (List.mem_append.mpr (Or.inr (by simp)))
      · rcases h.complete v hv with hA | hI
        · exact Or.inl ((h.ndA.mem_erase_iff).mpr ⟨hvq, hA⟩)
        · exact Or.inr (List.mem_append.mpr (Or.inl hI))
    · intro v hv
      simp only [setUser_active] at hv
      simp only [setUser_nextId]
      exact h.bndA v (List.mem_of_mem_erase hv)
    · intro v hv
      simp only [setUser_inactive] at hv
      simp only [setUser_nextId]
      rcases List.mem_append.mp hv with hm | hm
      · exact h.bndI v hm
      · rw [show v = id by simpa using hm]; exact hid
    · intro v hv
      simp only [setUser_repeated] at hv
      simp only [setUser_nextId]
      exact h.bndR v hv
    · intro i j hj
      simp only [setUser_nextId]
      rw [setUser_users] at hj
      by_cases hiq : i = id
      · rw [if_pos hiq] at hj
        exact h.bndF id j hj
      · rw [if_neg hiq] at hj
        exact h.bndF i j hj
    · intro i hge
      simp only [setUser_nextId] at hge
      rw [setUser_users, if_neg (by omega)]
      exact h.hi i hge
    · intro i
      simp only [setUser_now, setUser_users]
      split
      · next heq => subst heq; exact h.joinLe i
      · exact h.joinLe i
  · simp only [hc, if_false]
    exact h

theorem actUser_WF (e : Env) (h : WF e) (id : Nat) (s : RStream)
    (p : RPos) : WF (actUser e id s p).1 := by
  unfold actUser
  by_cases hact : (e.users id).active
  · simp only [hact, if_true]
    have hid : id < e.nextId := by
      by_contra hge
      push_neg at hge
      rw [h.hi id hge] at hact
      simp [noUser] at hact
    have h1 := retrieveData_WF e h id s p hid
    have hact1 : ((retrieveData e id s p).1.users id).active = true := by
      unfold retrieveData
      by_cases hc : (nextF s p).1 < retrieveThreshold
      · simp only [hc, if_true, setUser_users_self]
        exact hact
      · simp only [hc, if_false]
        exact hact
    have hid1 : id < (retrieveData e id s p).1.nextId := by
      unfold retrieveData
      by_cases hc : (nextF s p).1 < retrieveThreshold
      · simp only [hc, if_true, setUser_nextId]; exact hid
      · simp only [hc, if_false]; exact hid
    have h2 := shareData_WF (retrieveData e id s p).1 h1 id s
      (retrieveData e id s p).2 hid1
    have hact2 : (((shareData (retrieveData e id s p).1 id s
        (retrieveData e id s p).2).1).users id).active = true := by
      unfold shareData
      by_cases hc : (nextF s (retrieveData e id s p).2).1 <
          shareThreshold (retrieveData e id s p).1.now
            ((retrieveData e id s p).1.users id)
      · simp only [hc, if_true]
        rw [bumpReceived_users, setUser_users_self]
        exact hact1
      · simp only [hc, if_false]
        exact hact1
    exact quitApplication_WF _ h2 id s _ hact2
  · simp only [hact]
    simpa using h

theorem actList_WF (ids : List Nat) (e : Env) (h : WF e) (s : RStream)
    (p : RPos) : WF (actList e ids s p).1 := by
  induction ids generalizing e p with
  | nil => simpa [actList] using h
  | cons a rest ih =>
    have step : actList e (a :: rest) s p =
        actList (actUser e a s p).1 rest s (actUser e a s p).2 := by
      simp [actList]
    rw [step]
    exact ih _ (actUser_WF e h a s p) _

theorem WF_update_friends (e : Env) (h : WF e) (id : Nat)
    (fr' : List Nat) (hid : id < e.nextId)
    (hbnd : ∀ j ∈ fr', j < e.nextId) :
    WF (setUser e id { e.users id with friends := fr' }) := by
  refine ⟨?_, ?_, ?_, ?_, ?_, ?_, ?_, ?_, ?_, ?_, ?_, ?_⟩
  · intro v hv
    rw [setUser_active] at hv
    rw [setUser_users]
    split
    · next heq => subst heq; exact h.actA v hv
    · exact h.actA v hv
  · intro v hv
    rw [setUser_inactive] at hv
    rw [setUser_users]
    split
    · next heq => subst heq; exact h.actI v hv
    · exact h.actI v hv
  · intro v hv
    rw [setUser_active] at hv
    rw [setUser_inactive]
    exact h.disj v hv
  · rw [setUser_active]; exact h.ndA
  · rw [setUser_inactive]; exact h.ndI
  · intro v hv
    rw [setUser_nextId] at hv
    rw [setUser_active, setUser_inactive]
    exact h.complete v hv
  · intro v hv
    rw [setUser_active] at hv
    rw [setUser_nextId]
    exact h.bndA v hv
  · intro v hv
    rw [setUser_inactive] at hv
    rw [setUser_nextId]
    exact h.bndI v hv
  · intro v hv
    rw [setUser_repeated] at hv
    rw [setUser_nextId]
    exact h.bndR v hv
  · intro i j hj
    rw [setUser_nextId]
    rw [setUser_users] at hj
    by_cases hiq : i = id
    · rw [if_pos hiq] at hj
      exact hbnd j hj
    · rw [if_neg hiq] at hj
      exact h.bndF i j hj
  · intro i hge
    rw [setUser_nextId] at hge
    rw [setUser_users, if_neg (by omega)]
    exact h.hi i hge
  · intro i
    rw [setUser_now]
    rw [setUser_users]
    split
    · next heq => subst heq; exact h.joinLe i
    · exact h.joinLe i

theorem addFriendAll_WF (l : List Nat) (nid : Nat) (e : Env) (h : WF e)
    (hl : ∀ t ∈ l, t < e.nextId) (hnid : nid < e.nextId) :
    WF (addFriendAll e l nid) := by
  induction l generalizing e with
  | nil => exact h
  | cons t rest ih =>
    have step : addFriendAll e (t :: rest) nid =
        addFriendAll (setUser e t
          { e.users t with friends := (e.users t).friends ++ [nid] }) rest nid := by
      simp [addFriendAll]
    rw [step]
    have ht : t < e.nextId := hl t (List.mem_cons_self t rest)
    have h1 : WF (setUser e t
        { e.users t with friends := (e.users t).friends ++ [nid] }) := by
      refine WF_update_friends e h t _ ht ?_
      intro j hj
      rcases List.mem_append.mp hj with hj' | hj'
      · exact h.bndF t j hj'
      · rw [show j = nid by simpa using hj']; exact hnid
    refine ih _ h1 ?_ ?_
    · intro x hx
      rw [setUser_nextId]
      exact hl x (List.mem_cons_of_mem t hx)
    · rw [setUser_nextId]; exact hnid

/-! ### Lemmas about the spawn and attach steps of growth -/

@[simp] theorem spawn_now (e : Env) : (spawn e).now = e.now := rfl

@[simp] theorem spawn_nextId (e : Env) :
    (spawn e).nextId = e.nextId + 1 := rfl

@[simp] theorem spawn_active (e : Env) :
    (spawn e).active_users = e.active_users := rfl

@[simp] theorem spawn_inactive (e : Env) :
    (spawn e).inactive_users = e.inactive_users := rfl

@[simp] theorem spawn_repeated (e : Env) :
    (spawn e).repeated_nodes = e.repeated_nodes := rfl

theorem spawn_users (e : Env) (v : Nat) :
    (spawn e).users v = if v = e.nextId then initUser e.now
      else e.users v := by
  unfold spawn
  simp only [setUser]
  by_cases hv : v = e.nextId
  · subst hv; simp
  · simp [Function.update_noteq hv, hv]

theorem attach_shape (eN : Env) (nid rm : Nat) (nfl : List Nat) :
    (attach eN nid rm nfl).now = eN.now ∧
    (attach eN nid rm nfl).nextId = eN.nextId ∧
    (attach eN nid rm nfl).active_users = eN.active_users ++ [nid] ∧
    (attach eN nid rm nfl).inactive_users = eN.inactive_users := by
  obtain ⟨h1, h2, h3, h4, h5⟩ := addFriendAll_shape nfl nid
    (setUser eN nid { eN.users nid with
      friends := (eN.users nid).friends ++ nfl })
  unfold attach
  refine ⟨?_, ?_, ?_, ?_⟩ <;>
    simp [h1, h2, h3, h4]

theorem attach_users (eN : Env) (nid rm : Nat) (nfl : List Nat) (v : Nat) :
    (attach eN nid rm nfl).users v =
      if v = nid then
        { eN.users nid with friends :=
            ((eN.users nid).friends ++ nfl)
              ++ List.replicate (nfl.count nid) nid }
      else
        { eN.users v with friends :=
            (eN.users v).friends ++ List.replicate (nfl.count v) nid } := by
  unfold attach
  simp only []
  rw [addFriendAll_users]
  by_cases hv : v = nid
  · subst hv
    rw [setUser_users_self, if_pos rfl]
  · rw [setUser_users_ne _ _ _ _ hv, if_neg hv]

theorem attach_repeated (eN : Env) (nid rm : Nat) (nfl : List Nat)
    (hrm : rm ≠ nid) :
    (attach eN nid rm nfl).repeated_nodes =
      eN.repeated_nodes
        ++ List.replicate ((eN.users rm).friends.length + nfl.count rm) nid
        ++ nfl := by
  unfold attach
  simp only []
  obtain ⟨h1, h2, h3, h4, h5⟩ := addFriendAll_shape nfl nid
    (setUser eN nid { eN.users nid with
      friends := (eN.users nid).friends ++ nfl })
  rw [addFriendAll_users]
  rw [setUser_users_ne _ _ _ _ hrm]
  simp [h5, List.length_append, List.length_replicate]

theorem addOneUser_WF (fuel : Nat) (e : Env) (h : WF e) (s : RStream)
    (p : RPos) (e' : Env) (p' : RPos)
    (hsome : addOneUser fuel e s p = some (e', p')) :
    WF e' := by
  unfold addOneUser at hsome
  split at hsome
  · exact absurd hsome (by simp)
  · rename_i rp hr1
    split at hsome
    · exact absurd hsome (by simp)
    · rename_i rm rest hsort
      split at hsome
      · exact absurd hsome (by simp)
      · rename_i np hr2
        rw [Option.some_inj, Prod.mk.injEq] at hsome
        obtain ⟨hA, hB⟩ := hsome
        rw [← hA]
        set nfl := np.1.sort (· ≤ ·) with hnfl
        obtain ⟨hc1, hmem1⟩ := randomSubset_sound _ _ _ _ _ _ _ _ hr1
        obtain ⟨hc2, hmem2⟩ := randomSubset_sound _ _ _ _ _ _ _ _ hr2
        have hrm_in : rm ∈ rp.1 := by
          rw [← Finset.mem_sort (· ≤ ·), hsort]
          exact List.mem_cons_self rm rest
        have hrmA : rm ∈ e.active_users := by
          have := (hmem1 rm hrm_in).2
          rwa [spawn_active] at this
        have hrmlt : rm < e.nextId := h.bndA rm hrmA
        have hrmne : rm ≠ e.nextId := by omega
        have hnfl_np : ∀ f ∈ nfl, f ∈ np.1 := by
          intro f hf
          rw [hnfl, Finset.mem_sort] at hf
          exact hf
        have hnfl_lt : ∀ f ∈ nfl, f < e.nextId := by
          intro f hf
          have := (hmem2 f (hnfl_np f hf)).2
          rw [spawn_repeated] at this
          exact h.bndR f this
        have hnid_notin : e.nextId ∉ nfl := by
          intro hmem
          exact absurd (hnfl_lt _ hmem) (by omega)
        have hcount0 : nfl.count e.nextId = 0 :=
          List.count_eq_zero_of_not_mem hnid_notin
        obtain ⟨hnow, hnext, hact, hinact⟩ :=
          attach_shape (spawn e) e.nextId rm nfl
        have hnow' : (attach (spawn e) e.nextId rm nfl).now = e.now := by
          rw [hnow, spawn_now]
        have hnext' : (attach (spawn e) e.nextId rm nfl).nextId
            = e.nextId + 1 := by
          rw [hnext, spawn_nextId]
        have hact' : (attach (spawn e) e.nextId rm nfl).active_users
            = e.active_users ++ [e.nextId] := by
          rw [hact, spawn_active]
        have hinact' : (attach (spawn e) e.nextId rm nfl).inactive_users
            = e.inactive_users := by
          rw [hinact, spawn_inactive]
        have hrep' : (attach (spawn e) e.nextId rm nfl).repeated_nodes
            = e.repeated_nodes
              ++ List.replicate ((e.users rm).friends.length
                  + nfl.count rm) e.nextId
              ++ nfl := by
          rw [attach_repeated _ _ _ _ hrmne, spawn_users, if_neg hrmne,
            spawn_repeated]
        have huser_nid : (attach (spawn e) e.nextId rm nfl).users e.nextId
            = { initUser e.now with friends := nfl } := by
          rw [attach_users, if_pos rfl, spawn_users, if_pos rfl, hcount0]
          simp [initUser]
        have huser_ne : ∀ v, v ≠ e.nextId →
            (attach (spawn e) e.nextId rm nfl).users v
              = { e.users v with friends :=
                  (e.users v).friends
                    ++ List.replicate (nfl.count v) e.nextId } := by
          intro v hv
          rw [attach_users, if_neg hv, spawn_users, if_neg hv]
        refine ⟨?_, ?_, ?_, ?_, ?_, ?_, ?_, ?_, ?_, ?_, ?_, ?_⟩
        · intro v hv
          rw [hact'] at hv
          rcases List.mem_append.mp hv with hv' | hv'
          · have hvne : v ≠ e.nextId := by
              have := h.bndA v hv'; omega
            rw [huser_ne v hvne]
            exact h.actA v hv'
          · rw [show v = e.nextId from by simpa using hv', huser_nid]
            exact ⟨rfl, rfl⟩
        · intro v hv
          rw [hinact'] at hv
          have hvne : v ≠ e.nextId := by
            have := h.bndI v hv; omega
          rw [huser_ne v hvne]
          exact h.actI v hv
        · intro v hv
          rw [hact'] at hv
          rw [hinact']
          rcases List.mem_append.mp hv with hv' | hv'
          · exact h.disj v hv'
          · rw [show v = e.nextId from by simpa using hv']
            intro hmem
            have := h.bndI _ hmem; omega
        · rw [hact']
          rw [List.nodup_append]
          refine ⟨h.ndA, List.nodup_singleton _, ?_⟩
          intro a ha hb
          rw [show a = e.nextId from by simpa using hb] at ha
          have := h.bndA _ ha; omega
        · rw [hinact']; exact h.ndI
        · intro v hv
          rw [hnext'] at hv
          rw [hact', hinact']
          by_cases hvq : v = e.nextId
          · exact Or.inl (List.mem_append.mpr (Or.inr (by simp [hvq])))
          · rcases h.complete v (by omega) with hA' | hI'
            · exact Or.inl (List.mem_append.mpr (Or.inl hA'))
            · exact Or.inr hI'
        · intro v hv
          rw [hact'] at hv
          rw [hnext']
          rcases List.mem_append.mp hv with hv' | hv'
          · have := h.bndA v hv'; omega
          · rw [show v = e.nextId from by simpa using hv']; omega
        · intro v hv
          rw [hinact'] at hv
          rw [hnext']
          have := h.bndI v hv; omega
        · intro v hv
          rw [hrep'] at hv
          rw [hnext']
          rcases List.mem_append.mp hv with hv' | hv'
          · rcases List.mem_append.mp hv' with hv'' | hv''
            · have := h.bndR v hv''; omega
            · rw [List.eq_of_mem_replicate hv'']; omega
          · have := hnfl_lt v hv'; omega
        · intro i j hj
          rw [hnext']
          by_cases hiq : i = e.nextId
          · rw [hiq, huser_nid] at hj
            have : j ∈ nfl := hj
            have := hnfl_lt j this; omega
          · rw [huser_ne i hiq] at hj
            have : j ∈ (e.users i).friends
                ++ List.replicate (nfl.count i) e.nextId := hj
            rcases List.mem_append.mp this with hj' | hj'
            · have := h.bndF i j hj'; omega
            · rw [List.eq_of_mem_replicate hj']; omega
        · intro i hge
          rw [hnext'] at hge
          have hine : i ≠ e.nextId := by omega
          rw [huser_ne i hine]
          have hiu : e.users i = noUser := h.hi i (by omega)
          have hcnt : nfl.count i = 0 := by
            refine List.count_eq_zero_of_not_mem ?_
            intro hmem
            have := hnfl_lt i hmem; omega
          rw [hiu, hcnt]
          simp [noUser]
        · intro i
          rw [hnow']
          by_cases hiq : i = e.nextId
          · rw [hiq, huser_nid]
            exact le_refl _
          · rw [huser_ne i hiq]
            exact h.joinLe i

theorem addUsersLoop_WF (fuel : Nat) :
    ∀ (g : Nat) (e : Env), WF e → ∀ (s : RStream) (p : RPos)
      (e' : Env) (p' : RPos),
    addUsersLoop fuel g e s p = some (e', p') → WF e' := by
  intro g
  induction g with
  | zero =>
    intro e h s p e' p' hsome
    unfold addUsersLoop at hsome
    rw [Option.some_inj, Prod.mk.injEq] at hsome
    rw [← hsome.1]
    exact h
  | succ g ih =>
    intro e h s p e' p' hsome
    unfold addUsersLoop at hsome
    split at hsome
    · exact absurd hsome (by simp)
    · rename_i ep hone
      exact ih ep.1 (addOneUser_WF fuel e h s p ep.1 ep.2 (by rw [hone]))
        s ep.2 e' p' hsome

theorem addUsers_WF (cfg : Config) (e : Env) (h : WF e) (s : RStream)
    (p : RPos) (e' : Env) (p' : RPos)
    (hsome : addUsers cfg e s p = some (e', p')) : WF e' := by
  simp only [addUsers] at hsome
  split at hsome
  · exact addUsersLoop_WF cfg.fuel _ e h s _ e' p' hsome
  · exact absurd hsome (by simp)

theorem compact_WF (e : Env) (h : WF e) : WF (compact e) := by
  refine ⟨h.actA, h.actI, h.disj, h.ndA, h.ndI, h.complete, h.bndA,
    h.bndI, ?_, h.bndF, h.hi, h.joinLe⟩
  intro v hv
  have hv' : v ∈ e.repeated_nodes := List.mem_of_mem_filter hv
  exact h.bndR v hv'

theorem WF_bump_now (e : Env) (h : WF e) : WF { e with now := e.now + 1 } := by
  refine ⟨h.actA, h.actI, h.disj, h.ndA, h.ndI, h.complete, h.bndA,
    h.bndI, h.bndR, h.bndF, h.hi, ?_⟩
  intro i
  exact Nat.le_succ_of_le (h.joinLe i)

theorem tickRest_WF (cfg : Config) (e1 : Env) (h : WF e1) (s : RStream)
    (p : RPos) (rest : List Nat) (newBase : Nat) (e' : Env) (p' : RPos)
    (hsome : tickRest cfg e1 s p rest newBase = some (e', p')) : WF e' := by
  simp only [tickRest] at hsome
  split at hsome
  · exact absurd hsome (by simp)
  · rename_i r2 hau
    have hA : _ = e' := congrArg Prod.fst (Option.some_inj.mp hsome)
    rw [← hA]
    exact actList_WF _ _
      (actList_WF _ _ (addUsers_WF cfg e1 h s p r2.1 r2.2 (by rw [hau])) s _)
      s _

theorem doTick_WF (cfg : Config) (e : Env) (h : WF e) (s : RStream)
    (p : RPos) (e' : Env) (p' : RPos)
    (hsome : doTick cfg e s p = some (e', p')) : WF e' := by
  unfold doTick at hsome
  split at hsome
  · rw [Option.some_inj, Prod.mk.injEq] at hsome
    rw [← hsome.1]
    exact WF_bump_now e h
  · rename_i a rest hcons
    exact tickRest_WF cfg _ (actUser_WF _ (WF_bump_now e h) a s p) s _
      rest _ e' p' hsome

theorem tickZero_WF (e : Env) (h : WF e) (s : RStream) (p : RPos) :
    WF (tickZero e s p).1 :=
  actList_WF e.active_users e h s p

/-! ### The invariant holds for the generated initial network -/

theorem seedEnv_WF (m : Nat) : WF (seedEnv m) := by
  refine ⟨?_, ?_, ?_, ?_, ?_, ?_, ?_, ?_, ?_, ?_, ?_, ?_⟩
  · intro v hv
    have hvm : v < m := List.mem_range.mp hv
    simp [seedEnv, hvm, initUser]
  · intro v hv
    exact absurd hv (by simp [seedEnv])
  · intro v hv
    simp [seedEnv]
  · exact List.nodup_range m
  · simp [seedEnv]
  · intro v hv
    exact Or.inl (List.mem_range.mpr hv)
  · intro v hv
    exact List.mem_range.mp hv
  · intro v hv
    exact absurd hv (by simp [seedEnv])
  · intro v hv
    exact absurd hv (by simp [seedEnv])
  · intro i j hj
    exfalso
    by_cases him : i < m
    · simp [seedEnv, him, initUser] at hj
    · simp [seedEnv, him, noUser] at hj
  · intro i hge
    have : ¬ i < m := by
      simp [seedEnv] at hge
      omega
    simp [seedEnv, this]
  · intro i
    by_cases him : i < m
    · simp [seedEnv, him, initUser]
    · simp [seedEnv, him, noUser]

@[simp] theorem prepAddNode_now (e : Env) :
    (prepAddNode e).1.now = e.now := rfl

@[simp] theorem prepAddNode_nextId (e : Env) :
    (prepAddNode e).1.nextId = e.nextId + 1 := rfl

@[simp] theorem prepAddNode_active (e : Env) :
    (prepAddNode e).1.active_users = e.active_users ++ [e.nextId] := rfl

@[simp] theorem prepAddNode_inactive (e : Env) :
    (prepAddNode e).1.inactive_users = e.inactive_users := rfl

@[simp] theorem prepAddNode_repeated (e : Env) :
    (prepAddNode e).1.repeated_nodes = e.repeated_nodes := rfl

@[simp] theorem prepAddNode_id (e : Env) :
    (prepAddNode e).2 = e.nextId := rfl

theorem prepAddNode_users (e : Env) (v : Nat) :
    (prepAddNode e).1.users v =
      if v = e.nextId then initUser e.now else e.users v := by
  unfold prepAddNode
  simp only []
  exact setUser_users e e.nextId (initUser e.now) v

theorem prepAddNode_WF (e : Env) (h : WF e) : WF (prepAddNode e).1 := by
  refine ⟨?_, ?_, ?_, ?_, ?_, ?_, ?_, ?_, ?_, ?_, ?_, ?_⟩
  · intro v hv
    rw [prepAddNode_active] at hv
    rw [prepAddNode_users]
    rcases List.mem_append.mp hv with hv' | hv'
    · have hvne : v ≠ e.nextId := by
        have := h.bndA v hv'; omega
      rw [if_neg hvne]
      exact h.actA v hv'
    · rw [if_pos (by simpa using hv')]
      exact ⟨rfl, rfl⟩
  · intro v hv
    rw [prepAddNode_inactive] at hv
    rw [prepAddNode_users]
    have hvne : v ≠ e.nextId := by
      have := h.bndI v hv; omega
    rw [if_neg hvne]
    exact h.actI v hv
  · intro v hv
    rw [prepAddNode_active] at hv
    rw [prepAddNode_inactive]
    rcases List.mem_append.mp hv with hv' | hv'
    · exact h.disj v hv'
    · rw [show v = e.nextId from by simpa using hv']
      intro hmem
      have := h.bndI _ hmem; omega
  · rw [prepAddNode_active]
    rw [List.nodup_append]
    refine ⟨h.ndA, List.nodup_singleton _, ?_⟩
    intro a ha hb
    rw [show a = e.nextId from by simpa using hb] at ha
    have := h.bndA _ ha; omega
  · rw [prepAddNode_inactive]; exact h.ndI
  · intro v hv
    rw [prepAddNode_nextId] at hv
    rw [prepAddNode_active, prepAddNode_inactive]
    by_cases hvq : v = e.nextId
    · exact Or.inl (List.mem_append.mpr (Or.inr (by simp [hvq])))
    · rcases h.complete v (by omega) with hA' | hI'
      · exact Or.inl (List.mem_append.mpr (Or.inl hA'))
      · exact Or.inr hI'
  · intro v hv
    rw [prepAddNode_active] at hv
    rw [prepAddNode_nextId]
    rcases List.mem_append.mp hv with hv' | hv'
    · have := h.bndA v hv'; omega
    · rw [show v = e.nextId from by simpa using hv']; omega
  · intro v hv
    rw [prepAddNode_inactive] at hv
    rw [prepAddNode_nextId]
    have := h.bndI v hv; omega
  · intro v hv
    rw [prepAddNode_repeated] at hv
    rw [prepAddNode_nextId]
    have := h.bndR v hv; omega
  · intro i j hj
    rw [prepAddNode_nextId]
    rw [prepAddNode_users] at hj
    by_cases hiq : i = e.nextId
    · rw [if_pos hiq] at hj
      exact absurd hj (by simp [initUser])
    · rw [if_neg hiq] at hj
      have := h.bndF i j hj; omega
  · intro i hge
    rw [prepAddNode_nextId] at hge
    rw [prepAddNode_users, if_neg (by omega)]
    exact h.hi i (by omega)
  · intro i
    rw [prepAddNode_now, prepAddNode_users]
    split
    · simp [initUser]
    · exact h.joinLe i

theorem WF_extend_repeated (e : Env) (h : WF e) (l : List Nat)
    (hl : ∀ t ∈ l, t < e.nextId) :
    WF { e with repeated_nodes := e.repeated_nodes ++ l } := by
  refine ⟨h.actA, h.actI, h.disj, h.ndA, h.ndI, h.complete, h.bndA,
    h.bndI, ?_, h.bndF, h.hi, h.joinLe⟩
  intro v hv
  rcases List.mem_append.mp hv with hv' | hv'
  · exact h.bndR v hv'
  · exact hl v hv'

theorem prepConnect_WF (m : Nat) (e0 : Env) (nid : Nat) (tg : List Nat)
    (h : WF e0) (htg : ∀ t ∈ tg, t < e0.nextId) (hnid : nid < e0.nextId) :
    WF (prepConnect m e0 nid tg) := by
  have h1 : WF (setUser e0 nid { e0.users nid with
      friends := (e0.users nid).friends ++ tg }) := by
    refine WF_update_friends e0 h nid _ hnid ?_
    intro j hj
    rcases List.mem_append.mp hj with hj' | hj'
    · exact h.bndF nid j hj'
    · exact htg j hj'
  have h2 : WF (addFriendAll (setUser e0 nid { e0.users nid with
      friends := (e0.users nid).friends ++ tg }) tg nid) := by
    refine addFriendAll_WF tg nid _ h1 ?_ ?_
    · intro t ht
      rw [setUser_nextId]
      exact htg t ht
    · rw [setUser_nextId]
      exact hnid
  unfold prepConnect
  simp only []
  rw [List.append_assoc]
  refine WF_extend_repeated _ h2 _ ?_
  intro t ht
  obtain ⟨hs1, hs2, hs3, hs4, hs5⟩ := addFriendAll_shape tg nid
    (setUser e0 nid { e0.users nid with
      friends := (e0.users nid).friends ++ tg })
  rw [hs2, setUser_nextId]
  rcases List.mem_append.mp ht with ht' | ht'
  · exact htg t ht'
  · rw [List.eq_of_mem_replicate ht']
    exact hnid

theorem prepLoop_WF (m fuel : Nat) :
    ∀ (k : Nat) (e : Env) (tg : List Nat), WF e →
      (∀ t ∈ tg, t < e.nextId) →
    ∀ (s : RStream) (p : RPos) (e' : Env) (p' : RPos),
    prepLoop m fuel k e tg s p = some (e', p') → WF e' := by
  intro k
  induction k with
  | zero =>
    intro e tg h htg s p e' p' hsome
    unfold prepLoop at hsome
    rw [Option.some_inj, Prod.mk.injEq] at hsome
    rw [← hsome.1]
    exact h
  | succ k ih =>
    intro e tg h htg s p e' p' hsome
    simp only [prepLoop] at hsome
    split at hsome
    · exact absurd hsome (by simp)
    · rename_i tp hsub
      have h3 : WF (prepConnect m (prepAddNode e).1 (prepAddNode e).2 tg) := by
        refine prepConnect_WF m _ _ tg (prepAddNode_WF e h) ?_ ?_
        · intro t ht
          rw [prepAddNode_nextId]
          have := htg t ht; omega
        · rw [prepAddNode_id, prepAddNode_nextId]; omega
      refine ih _ _ h3 ?_ s tp.2 e' p' hsome
      intro t ht
      rw [Finset.mem_sort] at ht
      obtain ⟨_, hmem⟩ := randomSubset_sound _ _ _ _ _ _ tp.1 tp.2
        (by rw [hsub])
      exact h3.bndR t (hmem t ht).2

theorem prepareBody_WF (n m fuel : Nat) (s : RStream) (p : RPos)
    (e' : Env) (p' : RPos)
    (hsome : prepareBody n m fuel s p = some (e', p')) : WF e' := by
  simp only [prepareBody] at hsome
  split at hsome
  · rw [Option.some_inj, Prod.mk.injEq] at hsome
    rw [← hsome.1]
    exact seedEnv_WF m
  · rename_i k hk
    split at hsome
    · exact absurd hsome (by simp)
    · rename_i tp hsub
      have hseed := seedEnv_WF m
      have hadd := prepAddNode_WF (seedEnv m) hseed
      have h3 : WF (prepConnect m (prepAddNode (seedEnv m)).1
          (prepAddNode (seedEnv m)).2
          (prepAddNode (seedEnv m)).1.active_users) := by
        refine prepConnect_WF m _ _ _ hadd hadd.bndA ?_
        rw [prepAddNode_id, prepAddNode_nextId]
        simp [seedEnv]
      refine prepLoop_WF m fuel k _ _ h3 ?_ s tp.2 e' p' hsome
      intro t ht
      rw [Finset.mem_sort] at ht
      obtain ⟨_, hmem⟩ := randomSubset_sound _ _ _ _ _ _ tp.1 tp.2
        (by rw [hsub])
      exact h3.bndR t (hmem t ht).2

theorem prepareNetwork_WF (n m fuel : Nat) (s : RStream) (p : RPos)
    (e' : Env) (p' : RPos)
    (hok : prepareNetwork n m fuel s p = Except.ok (e', p')) : WF e' := by
  unfold prepareNetwork at hok
  split at hok
  · exact absurd hok (by simp)
  · split at hok
    · exact absurd hok (by simp)
    · rename_i ep hbody
      rw [Except.ok.injEq, Prod.mk.injEq] at hok
      rw [← hok.1]
      exact prepareBody_WF n m fuel s p ep.1 ep.2 (by rw [hbody])

/-! ### The invariant holds at every observation point -/

theorem SimStep_WF (cfg : Config) (s : RStream) (e : Env) (p : RPos)
    (e' : Env) (p' : RPos) (h : WF e) (hstep : SimStep cfg s e p e' p') :
    WF e' := by
  cases hstep with
  | tick0 _ _ heq =>
    have hA : _ = e' := congrArg Prod.fst heq
    rw [← hA]
    exact tickZero_WF e h s p
  | bound =>
    exact compact_WF e h
  | tick _ _ heq =>
    exact doTick_WF cfg e h s p e' p' heq

theorem Reach_WF (cfg : Config) (s : RStream) (e : Env) (p : RPos)
    (h : Reach cfg s e p) : WF e := by
  induction h with
  | init p0 e1 p1 hok =>
    exact prepareNetwork_WF cfg.n0 cfg.m cfg.fuel s p0 e1 p1 hok
  | step e1 p1 e2 p2 _ hstep ih =>
    exact SimStep_WF cfg s e1 p1 e2 p2 ih hstep

/-! ### Deactivated users stay deactivated and frozen -/

theorem frozen_refl (e : Env) (id : Nat) : frozen e e id :=
  ⟨rfl, rfl, rfl, rfl, rfl, rfl, rfl⟩

theorem frozen_trans (e1 e2 e3 : Env) (id : Nat) (h1 : frozen e1 e2 id)
    (h2 : frozen e2 e3 id) : frozen e1 e3 id := by
  obtain ⟨a1, a2, a3, a4, a5, a6, a7⟩ := h1
  obtain ⟨b1, b2, b3, b4, b5, b6, b7⟩ := h2
  exact ⟨b1.trans a1, b2.trans a2, b3.trans a3, b4.trans a4,
    b5.trans a5, b6.trans a6, b7.trans a7⟩

theorem frozen_of_users_eq (e e' : Env) (id : Nat)
    (h : e'.users id = e.users id) : frozen e e' id := by
  rw [frozen, h]
  exact frozen_refl e id

theorem retrieveData_users_ne (e : Env) (a : Nat) (s : RStream) (p : RPos)
    (v : Nat) (hva : v ≠ a) :
    (retrieveData e a s p).1.users v = e.users v := by
  unfold retrieveData
  by_cases hc : (nextF s p).1 < retrieveThreshold
  · simp only [hc, if_true]
    exact setUser_users_ne _ _ _ _ hva
  · simp only [hc, if_false]

theorem retrieveData_lists (e : Env) (a : Nat) (s : RStream) (p : RPos) :
    (retrieveData e a s p).1.active_users = e.active_users ∧
    (retrieveData e a s p).1.inactive_users = e.inactive_users ∧
    (retrieveData e a s p).1.nextId = e.nextId := by
  unfold retrieveData
  by_cases hc : (nextF s p).1 < retrieveThreshold
  · simp [hc]
  · simp [hc]

theorem shareData_frozen_ne (e : Env) (a : Nat) (s : RStream) (p : RPos)
    (v : Nat) (hva : v ≠ a) : frozen e (shareData e a s p).1 v := by
  unfold shareData
  by_cases hc : (nextF s p).1 < shareThreshold e.now (e.users a)
  · simp only [hc, if_true]
    rw [frozen, bumpReceived_users, setUser_users_ne _ _ _ _ hva]
    exact ⟨rfl, rfl, rfl, rfl, rfl, rfl, rfl⟩
  · simp only [hc, if_false]
    exact frozen_refl e v

theorem shareData_lists (e : Env) (a : Nat) (s : RStream) (p : RPos) :
    (shareData e a s p).1.active_users = e.active_users ∧
    (shareData e a s p).1.inactive_users = e.inactive_users ∧
    (shareData e a s p).1.nextId = e.nextId := by
  unfold shareData
  by_cases hc : (nextF s p).1 < shareThreshold e.now (e.users a)
  · obtain ⟨h1, h2, h3, h4, h5⟩ := bumpReceived_shape (e.users a).friends
      (setUser e a { e.users a with
        shares_downloaded :=
          (e.users a).shares_downloaded + (e.users a).shares_received,
        shares_received := 0,
        shares := (e.users a).shares + 1 + (e.users a).friends.length,
        share_ops := (e.users a).share_ops + 1,
        last_share := e.now })
    simp [hc, h2, h3, h4]
  · simp [hc]

theorem quitApplication_users_ne (e : Env) (a : Nat) (s : RStream)
    (p : RPos) (v : Nat) (hva : v ≠ a) :
    (quitApplication e a s p).1.users v = e.users v := by
  unfold quitApplication
  by_cases hc : (nextF s p).1 < quitThreshold
  · simp only [hc, if_true]
    exact setUser_users_ne _ _ _ _ hva
  · simp only [hc, if_false]

theorem quitApplication_inactive_super (e : Env) (a : Nat) (s : RStream)
    (p : RPos) (id : Nat) (hmem : id ∈ e.inactive_users) :
    id ∈ (quitApplication e a s p).1.inactive_users := by
  unfold quitApplication
  by_cases hc : (nextF s p).1 < quitThreshold
  · simp only [hc, if_true, setUser_inactive]
    exact List.mem_append.mpr (Or.inl hmem)
  · simp only [hc, if_false]
    exact hmem

theorem actUser_inact (e : Env) (h : WF e) (a : Nat) (s : RStream)
    (p : RPos) (id : Nat) (hmem : id ∈ e.inactive_users) :
    id ∈ (actUser e a s p).1.inactive_users ∧
    frozen e (actUser e a s p).1 id := by
  unfold actUser
  by_cases hact : (e.users a).active
  · simp only [hact, if_true]
    have hne : id ≠ a := by
      intro hEq
      rw [hEq] at hmem
      rw [(h.actI a hmem).1] at hact
      exact absurd hact (by simp)
    set e1 := (retrieveData e a s p).1 with he1
    have hf1 : frozen e e1 id :=
      frozen_of_users_eq _ _ _ (retrieveData_users_ne e a s p id hne)
    have hm1 : id ∈ e1.inactive_users := by
      rw [he1, (retrieveData_lists e a s p).2.1]
      exact hmem
    set e2 := (shareData e1 a s (retrieveData e a s p).2).1 with he2
    have hf2 : frozen e1 e2 id := shareData_frozen_ne e1 a s _ id hne
    have hm2 : id ∈ e2.inactive_users := by
      rw [he2, (shareData_lists e1 a s _).2.1]
      exact hm1
    refine ⟨?_, ?_⟩
    · exact quitApplication_inactive_super e2 a s _ id hm2
    · refine frozen_trans _ _ _ _ (frozen_trans _ _ _ _ hf1 hf2) ?_
      exact frozen_of_users_eq _ _ _ (quitApplication_users_ne e2 a s _ id hne)
  · simp only [hact]
    simp only [Bool.false_eq_true, if_false]
    exact ⟨hmem, frozen_refl e id⟩

theorem actList_inact (ids : List Nat) :
    ∀ (e : Env), WF e → ∀ (s : RStream) (p : RPos) (id : Nat),
    id ∈ e.inactive_users →
    id ∈ (actList e ids s p).1.inactive_users ∧
    frozen e (actList e ids s p).1 id := by
  induction ids with
  | nil =>
    intro e h s p id hmem
    exact ⟨by simpa [actList] using hmem, by
      simpa [actList] using frozen_refl e id⟩
  | cons a rest ih =>
    intro e h s p id hmem
    have step : actList e (a :: rest) s p =
        actList (actUser e a s p).1 rest s (actUser e a s p).2 := by
      simp [actList]
    rw [step]
    obtain ⟨hm1, hf1⟩ := actUser_inact e h a s p id hmem
    obtain ⟨hm2, hf2⟩ := ih (actUser e a s p).1 (actUser_WF e h a s p)
      s (actUser e a s p).2 id hm1
    exact ⟨hm2, frozen_trans _ _ _ _ hf1 hf2⟩

theorem addOneUser_obs (fuel : Nat) (e : Env) (s : RStream) (p : RPos)
    (e' : Env) (p' : RPos) (hsome : addOneUser fuel e s p = some (e', p')) :
    e'.inactive_users = e.inactive_users ∧
    (∀ v, v ≠ e.nextId → frozen e e' v) := by
  unfold addOneUser at hsome
  split at hsome
  · exact absurd hsome (by simp)
  · rename_i rp hr1
    split at hsome
    · exact absurd hsome (by simp)
    · rename_i rm rest hsort
      split at hsome
      · exact absurd hsome (by simp)
      · rename_i np hr2
        rw [Option.some_inj, Prod.mk.injEq] at hsome
        rw [← hsome.1]
        set nfl := np.1.sort (· ≤ ·) with hnfl
        obtain ⟨hnow, hnext, hact, hinact⟩ :=
          attach_shape (spawn e) e.nextId rm nfl
        constructor
        · rw [hinact, spawn_inactive]
        · intro v hv
          rw [frozen, attach_users, if_neg hv, spawn_users, if_neg hv]
          exact ⟨rfl, rfl, rfl, rfl, rfl, rfl, rfl⟩

theorem addUsersLoop_inact (fuel : Nat) :
    ∀ (g : Nat) (e : Env), WF e → ∀ (s : RStream) (p : RPos)
      (e' : Env) (p' : RPos),
    addUsersLoop fuel g e s p = some (e', p') →
    ∀ id ∈ e.inactive_users,
      id ∈ e'.inactive_users ∧ frozen e e' id := by
  intro g
  induction g with
  | zero =>
    intro e h s p e' p' hsome id hmem
    unfold addUsersLoop at hsome
    rw [Option.some_inj, Prod.mk.injEq] at hsome
    rw [← hsome.1]
    exact ⟨hmem, frozen_refl e id⟩
  | succ g ih =>
    intro e h s p e' p' hsome id hmem
    unfold addUsersLoop at hsome
    split at hsome
    · exact absurd hsome (by simp)
    · rename_i ep hone
      have hone' : addOneUser fuel e s p = some (ep.1, ep.2) := by
        rw [hone]
      obtain ⟨hin, hfr⟩ := addOneUser_obs fuel e s p ep.1 ep.2 hone'
      have hne : id ≠ e.nextId := by
        have := h.bndI id hmem; omega
      have hm1 : id ∈ ep.1.inactive_users := by rw [hin]; exact hmem
      obtain ⟨hm2, hf2⟩ := ih ep.1
        (addOneUser_WF fuel e h s p ep.1 ep.2 hone')
        s ep.2 e' p' hsome id hm1
      exact ⟨hm2, frozen_trans _ _ _ _ (hfr id hne) hf2⟩

theorem addUsers_inact (cfg : Config) (e : Env) (h : WF e) (s : RStream)
    (p : RPos) (e' : Env) (p' : RPos)
    (hsome : addUsers cfg e s p = some (e', p')) :
    ∀ id ∈ e.inactive_users,
      id ∈ e'.inactive_users ∧ frozen e e' id := by
  simp only [addUsers] at hsome
  split at hsome
  · exact addUsersLoop_inact cfg.fuel _ e h s _ e' p' hsome
  · exact absurd hsome (by simp)

theorem tickRest_inact (cfg : Config) (e1 : Env) (h : WF e1)
    (s : RStream) (p : RPos) (rest : List Nat) (newBase : Nat)
    (e' : Env) (p' : RPos)
    (hsome : tickRest cfg e1 s p rest newBase = some (e', p')) :
    ∀ id ∈ e1.inactive_users,
      id ∈ e'.inactive_users ∧ frozen e1 e' id := by
  simp only [tickRest] at hsome
  split at hsome
  · exact absurd hsome (by simp)
  · rename_i r2 hau
    intro id hmem
    have hA : _ = e' := congrArg Prod.fst (Option.some_inj.mp hsome)
    rw [← hA]
    have hau' : addUsers cfg e1 s p = some (r2.1, r2.2) := by rw [hau]
    have hwf2 : WF r2.1 := addUsers_WF cfg e1 h s p r2.1 r2.2 hau'
    obtain ⟨hm2, hf2⟩ := addUsers_inact cfg e1 h s p r2.1 r2.2 hau' id hmem
    obtain ⟨hm3, hf3⟩ := actList_inact rest r2.1 hwf2 s r2.2 id hm2
    have hwf3 : WF (actList r2.1 rest s r2.2).1 :=
      actList_WF rest r2.1 hwf2 s r2.2
    obtain ⟨hm4, hf4⟩ := actList_inact _ _ hwf3 s
      (actList r2.1 rest s r2.2).2 id hm3
    exact ⟨hm4, frozen_trans _ _ _ _ (frozen_trans _ _ _ _ hf2 hf3) hf4⟩

theorem doTick_inact (cfg : Config) (e : Env) (h : WF e) (s : RStream)
    (p : RPos) (e' : Env) (p' : RPos)
    (hsome : doTick cfg e s p = some (e', p')) :
    ∀ id ∈ e.inactive_users,
      id ∈ e'.inactive_users ∧ frozen e e' id := by
  unfold doTick at hsome
  split at hsome
  · intro id hmem
    rw [Option.some_inj, Prod.mk.injEq] at hsome
    rw [← hsome.1]
    exact ⟨hmem, frozen_refl e id⟩
  · rename_i a rest hcons
    intro id hmem
    set eb := { e with now := e.now + 1 } with heb
    have hwfb : WF eb := WF_bump_now e h
    have hmb : id ∈ eb.inactive_users := hmem
    obtain ⟨hm1, hf1⟩ := actUser_inact eb hwfb a s p id hmb
    have hwf1 : WF (actUser eb a s p).1 := actUser_WF eb hwfb a s p
    obtain ⟨hm2, hf2⟩ := tickRest_inact cfg _ hwf1 s _ rest _ e' p'
      hsome id hm1
    refine ⟨hm2, ?_⟩
    have hfb : frozen e eb id := frozen_refl e id
    exact frozen_trans _ _ _ _ (frozen_trans _ _ _ _ hfb hf1) hf2

theorem compact_inact (e : Env) (id : Nat) (hmem : id ∈ e.inactive_users) :
    id ∈ (compact e).inactive_users ∧ frozen e (compact e) id :=
  ⟨hmem, frozen_refl e id⟩

theorem SimStep_inact (cfg : Config) (s : RStream) (e : Env) (p : RPos)
    (e' : Env) (p' : RPos) (h : WF e) (hstep : SimStep cfg s e p e' p')
    (id : Nat) (hmem : id ∈ e.inactive_users) :
    id ∈ e'.inactive_users ∧ frozen e e' id := by
  cases hstep with
  | tick0 _ _ heq =>
    have hA : _ = e' := congrArg Prod.fst heq
    rw [← hA]
    exact actList_inact e.active_users e h s p id hmem
  | bound =>
    exact compact_inact e id hmem
  | tick _ _ heq =>
    exact doTick_inact cfg e h s p e' p' heq id hmem

/-! ### Friends lists only ever grow -/

theorem friendsGrow_refl (e : Env) : friendsGrow e e :=
  fun _ => List.prefix_rfl

theorem friendsGrow_trans (e1 e2 e3 : Env) (h1 : friendsGrow e1 e2)
    (h2 : friendsGrow e2 e3) : friendsGrow e1 e3 :=
  fun id => (h1 id).trans (h2 id)

theorem friendsGrow_of_users_friends_eq (e e' : Env)
    (h : ∀ id, (e'.users id).friends = (e.users id).friends) :
    friendsGrow e e' := by
  intro id
  rw [h id]

theorem retrieveData_grow (e : Env) (a : Nat) (s : RStream) (p : RPos) :
    friendsGrow e (retrieveData e a s p).1 := by
  refine friendsGrow_of_users_friends_eq _ _ ?_
  intro id
  unfold retrieveData
  by_cases hc : (nextF s p).1 < retrieveThreshold
  · simp only [hc, if_true]
    rw [setUser_users]
    split
    · next heq => subst heq; rfl
    · rfl
  · simp only [hc, if_false]

theorem shareData_grow (e : Env) (a : Nat) (s : RStream) (p : RPos) :
    friendsGrow e (shareData e a s p).1 := by
  refine friendsGrow_of_users_friends_eq _ _ ?_
  intro id
  unfold shareData
  by_cases hc : (nextF s p).1 < shareThreshold e.now (e.users a)
  · simp only [hc, if_true]
    rw [bumpReceived_users, setUser_users]
    split
    · next heq => subst heq; rfl
    · rfl
  · simp only [hc, if_false]

theorem quitApplication_friends_eq (e : Env) (a : Nat) (s : RStream)
    (p : RPos) (id : Nat) :
    ((quitApplication e a s p).1.users id).friends
      = (e.users id).friends := by
  unfold quitApplication
  by_cases hc : (nextF s p).1 < quitThreshold
  · simp only [hc, if_true]
    rw [setUser_users]
    split
    · next heq => subst heq; rfl
    · rfl
  · simp only [hc, if_false]

theorem actUser_grow (e : Env) (a : Nat) (s : RStream) (p : RPos) :
    friendsGrow e (actUser e a s p).1 := by
  unfold actUser
  by_cases hact : (e.users a).active
  · simp only [hact, if_true]
    exact friendsGrow_trans _ _ _
      (friendsGrow_trans _ _ _ (retrieveData_grow e a s p)
        (shareData_grow (retrieveData e a s p).1 a s
          (retrieveData e a s p).2))
      (friendsGrow_of_users_friends_eq _ _
        (fun id => quitApplication_friends_eq
          (shareData (retrieveData e a s p).1 a s
            (retrieveData e a s p).2).1 a s
          (shareData (retrieveData e a s p).1 a s
            (retrieveData e a s p).2).2 id))
  · simp only [hact]
    simp only [Bool.false_eq_true, if_false]
    exact friendsGrow_refl e

theorem actList_grow (ids : List Nat) :
    ∀ (e : Env) (s : RStream) (p : RPos),
    friendsGrow e (actList e ids s p).1 := by
  induction ids with
  | nil =>
    intro e s p
    simpa [actList] using friendsGrow_refl e
  | cons a rest ih =>
    intro e s p
    have step : actList e (a :: rest) s p =
        actList (actUser e a s p).1 rest s (actUser e a s p).2 := by
      simp [actList]
    rw [step]
    exact friendsGrow_trans _ _ _ (actUser_grow e a s p)
      (ih (actUser e a s p).1 s (actUser e a s p).2)

theorem addOneUser_grow (fuel : Nat) (e : Env) (s : RStream) (p : RPos)
    (e' : Env) (p' : RPos) (hfresh : (e.users e.nextId).friends = [])
    (hsome : addOneUser fuel e s p = some (e', p')) :
    friendsGrow e e' := by
  unfold addOneUser at hsome
  split at hsome
  · exact absurd hsome (by simp)
  · rename_i rp hr1
    split at hsome
    · exact absurd hsome (by simp)
    · rename_i rm rest hsort
      split at hsome
      · exact absurd hsome (by simp)
      · rename_i np hr2
        rw [Option.some_inj, Prod.mk.injEq] at hsome
        rw [← hsome.1]
        intro id
        rw [attach_users]
        by_cases hid : id = e.nextId
        · rw [if_pos hid, hid, spawn_users, if_pos rfl, hfresh]
          exact List.nil_prefix
        · rw [if_neg hid, spawn_users, if_neg hid]
          exact List.prefix_append _ _

theorem addUsersLoop_grow (fuel : Nat) :
    ∀ (g : Nat) (e : Env), WF e → ∀ (s : RStream) (p : RPos)
      (e' : Env) (p' : RPos),
    addUsersLoop fuel g e s p = some (e', p') → friendsGrow e e' := by
  intro g
  induction g with
  | zero =>
    intro e h s p e' p' hsome
    unfold addUsersLoop at hsome
    rw [Option.some_inj, Prod.mk.injEq] at hsome
    rw [← hsome.1]
    exact friendsGrow_refl e
  | succ g ih =>
    intro e h s p e' p' hsome
    unfold addUsersLoop at hsome
    split at hsome
    · exact absurd hsome (by simp)
    · rename_i ep hone
      have hone' : addOneUser fuel e s p = some (ep.1, ep.2) := by
        rw [hone]
      have hfresh : (e.users e.nextId).friends = [] := by
        rw [h.hi e.nextId (le_refl _)]
        rfl
      refine friendsGrow_trans _ _ _
        (addOneUser_grow fuel e s p ep.1 ep.2 hfresh hone') ?_
      exact ih ep.1 (addOneUser_WF fuel e h s p ep.1 ep.2 hone')
        s ep.2 e' p' hsome

theorem addUsers_grow (cfg : Config) (e : Env) (h : WF e) (s : RStream)
    (p : RPos) (e' : Env) (p' : RPos)
    (hsome : addUsers cfg e s p = some (e', p')) : friendsGrow e e' := by
  simp only [addUsers] at hsome
  split at hsome
  · exact addUsersLoop_grow cfg.fuel _ e h s _ e' p' hsome
  · exact absurd hsome (by simp)

theorem tickRest_grow (cfg : Config) (e1 : Env) (h : WF e1)
    (s : RStream) (p : RPos) (rest : List Nat) (newBase : Nat)
    (e' : Env) (p' : RPos)
    (hsome : tickRest cfg e1 s p rest newBase = some (e', p')) :
    friendsGrow e1 e' := by
  simp only [tickRest] at hsome
  split at hsome
  · exact absurd hsome (by simp)
  · rename_i r2 hau
    have hA : _ = e' := congrArg Prod.fst (Option.some_inj.mp hsome)
    rw [← hA]
    have hau' : addUsers cfg e1 s p = some (r2.1, r2.2) := by rw [hau]
    refine friendsGrow_trans _ _ _ (addUsers_grow cfg e1 h s p r2.1 r2.2 hau') ?_
    exact friendsGrow_trans _ _ _ (actList_grow rest r2.1 s r2.2)
      (actList_grow _ _ s _)

theorem doTick_grow (cfg : Config) (e : Env) (h : WF e) (s : RStream)
    (p : RPos) (e' : Env) (p' : RPos)
    (hsome : doTick cfg e s p = some (e', p')) : friendsGrow e e' := by
  unfold doTick at hsome
  split at hsome
  · rw [Option.some_inj, Prod.mk.injEq] at hsome
    rw [← hsome.1]
    exact friendsGrow_refl e
  · rename_i a rest hcons
    have hwfb : WF { e with now := e.now + 1 } := WF_bump_now e h
    have hg1 : friendsGrow e (actUser { e with now := e.now + 1 } a s p).1 :=
      actUser_grow { e with now := e.now + 1 } a s p
    refine friendsGrow_trans _ _ _ hg1 ?_
    exact tickRest_grow cfg _ (actUser_WF _ hwfb a s p) s _ rest _ e' p'
      hsome

theorem SimStep_grow (cfg : Config) (s : RStream) (e : Env) (p : RPos)
    (e' : Env) (p' : RPos) (h : WF e) (hstep : SimStep cfg s e p e' p') :
    friendsGrow e e' := by
  cases hstep with
  | tick0 _ _ heq =>
    have hA : _ = e' := congrArg Prod.fst heq
    rw [← hA]
    exact actList_grow e.active_users e s p
  | bound =>
    exact friendsGrow_refl e
  | tick _ _ heq =>
    exact doTick_grow cfg e h s p e' p' heq

/-! ### Claim C3 -/

/-- Claim C3: the claim states that the unique-subset sampler fails
with an `InsufficientCandidates` error within a bounded number of
draws when the multiset contains fewer than `k` distinct active
elements.  The source (`_random_subset`, lines 83-98) has no iteration
cap and no such error: this theorem shows that whenever the multiset
holds fewer than `k` distinct active elements the loop produces no
result within ANY number of draws `fuel` — the Python code loops
forever instead of signalling the error the specification requires. -/
theorem randomSubset_insufficient_spins (users : Nat → User)
    (seq : List Nat) (k fuel : Nat) (s : RStream) (p : RPos)
    (h : (seq.filter (fun x => (users x).active)).toFinset.card < k) :
    randomSubset users fuel seq k s p = none :=
  randomSubsetAux_insufficient users seq k s fuel ∅ p h (by simp)

/-- Witness for C3: a one-element multiset whose only user is
inactive never yields a 1-element sample, at fuel 7. -/
theorem randomSubset_insufficient_spins_witness :
    (([0] : List Nat).filter
      (fun x => (usersNone x).active)).toFinset.card < 1 ∧
    randomSubset usersNone 7 [0] 1 sZ pZ = none :=
  ⟨by decide, randomSubset_insufficient_spins usersNone [0] 1 7 sZ pZ
    (by decide)⟩

/-! ### Claim C4 -/

/-- Claim C4: `build_initial_network(n, m, seed)` fails with the
`InvalidParameter` error exactly when `m < 1` or `m ≥ n`
(`prepare_network`, lines 51-53); no construction is performed in that
case (the error is returned before any node is created), and with
valid parameters the run never produces that error.  In particular
`prepareNetwork 5 5` fails this way for every fuel and stream. -/
theorem prepareNetwork_invalidParameter_iff (n m fuel : Nat)
    (s : RStream) (p : RPos) :
    prepareNetwork n m fuel s p = Except.error SimErr.invalidParameter
      ↔ (m < 1 ∨ n ≤ m) := by
  constructor
  · intro h
    by_cases hc : m < 1 ∨ n ≤ m
    · exact hc
    · exfalso
      unfold prepareNetwork at h
      rw [if_neg hc] at h
      cases hb : prepareBody n m fuel s p with
      | none => rw [hb] at h; simp at h
      | some ep => rw [hb] at h; simp at h
  · intro h
    unfold prepareNetwork
    rw [if_pos h]

/-! ### Claim C5 -/

/-- Claim C5: two complete runs with the same parameters and the same
seed produce bit-identical snapshot sequences.  In the embedding the
pseudo-random generator is the explicit pair of draw streams, which a
seed determines completely; the theorem states that the whole result
of `run` — snapshot times and every snapshot field, the degree
distribution included — depends on nothing but the configuration and
the pointwise values of the draw streams. -/
theorem simRun_deterministic (cfg : Config) (s1 s2 : RStream)
    (hf : ∀ i, s1.fs i = s2.fs i) (hn : ∀ i, s1.ns i = s2.ns i) :
    simRun cfg s1 = simRun cfg s2 := by
  obtain ⟨f1, n1⟩ := s1
  obtain ⟨f2, n2⟩ := s2
  have hf' : f1 = f2 := funext hf
  have hn' : n1 = n2 := funext hn
  rw [hf', hn']

/-- Witness for C5 at a concrete configuration and stream. -/
theorem simRun_deterministic_witness :
    (∀ i, sZ.fs i = sZ.fs i) ∧ (∀ i, sZ.ns i = sZ.ns i) ∧
    simRun ⟨3, 1, 2, 4⟩ sZ = simRun ⟨3, 1, 2, 4⟩ sZ :=
  ⟨fun _ => rfl, fun _ => rfl,
    simRun_deterministic ⟨3, 1, 2, 4⟩ sZ sZ (fun _ => rfl) (fun _ => rfl)⟩

/-! ### Claim C9 -/

/-- Claim C9: `last_share` is initialised to `0` at creation whatever
the join time (`User.__init__`, line 117), so a user that has never
shared has share probability `0.1 + t * 0.1` at time `t`, measured
from time zero and not from its join time; consequently at any time
`t ≥ 9` the threshold is at least `1` and the Bernoulli trial fires
for every possible value of `random.random()` (which lies in `[0,1)`),
so such a user shares with certainty on its first step. -/
theorem lastShare_init_and_certain_share :
    (∀ j, (initUser j).last_share = 0) ∧
    (∀ (now : Nat) (u : User), u.last_share = 0 →
      shareThreshold now u = 1/10 + (now : ℚ) * (1/10)) ∧
    (∀ (e : Env) (id : Nat) (s : RStream) (p : RPos),
      (e.users id).last_share = 0 → 9 ≤ e.now →
      0 ≤ s.fs p.fp → s.fs p.fp < 1 →
      ((shareData e id s p).1.users id).share_ops
        = (e.users id).share_ops + 1) := by
  refine ⟨fun _ => rfl, ?_, ?_⟩
  · intro now u h
    rw [shareThreshold, h]
    push_cast
    ring
  · intro e id s p hls hnow h0 h1
    have hcast : (9 : ℚ) ≤ (e.now : ℚ) := by exact_mod_cast hnow
    have hthr : (1 : ℚ) ≤ shareThreshold e.now (e.users id) := by
      rw [shareThreshold, hls]
      push_cast
      linarith
    have hfire : s.fs p.fp < shareThreshold e.now (e.users id) :=
      lt_of_lt_of_le h1 hthr
    unfold shareData
    simp only [nextF]
    rw [if_pos hfire]
    rw [bumpReceived_users, setUser_users_self]

/-! ### Claim C1 -/

/-- Claim C1: the claim states that the "shares never downloaded"
aggregate of a snapshot equals the sum of `shares_received` over all
users, active and inactive.  In `save_stats` the accumulation for
ACTIVE users adds `user.share_ops` instead of `user.shares_received`
(line 231, visibly a slip duplicating line 230; the inactive-user loop
at line 242 uses `shares_received` as the specification describes).
At the reachable state `envC1` — after tick zero of a 3-user run in
which every user shared once and nobody quit — the snapshot field is
`3` (the three share operations) while the sum of `shares_received`
over all users is `4`. -/
theorem saveStats_neverretr_mismatch :
    (saveStats envC1).share_neverretr = 3 ∧
    specNeverDownloaded envC1 = 4 := by
  constructor
  · with_unfolding_all rfl
  · with_unfolding_all rfl

/-! ### Claim C2, the counterexample side -/

/-- Counterexample to claim C2 as stated: the claim quantifies over
every user, but the user `1` of the two-node initial network `env2`
has the friends list `[0, 1, 1]` (the generator aliasing gives it a
double self-loop).  When its `share_data` fires, the action does run —
`share_ops` rises to `1` and `shares` rises by `1 + 3` — but the
friend loop then increments the sharer itself twice, so its
`shares_received` ends at `2`, not `0` as the claim states, and the
total `shares_received` increase across all OTHER users is `1`, not
`|friends| = 3`. -/
theorem shareData_selfloop_counterexample :
    (env2.users 1).friends = [0, 1, 1] ∧
    ((shareData env2 1 sZ pZ).1.users 1).share_ops = 1 ∧
    ((shareData env2 1 sZ pZ).1.users 1).shares = 4 ∧
    ((shareData env2 1 sZ pZ).1.users 1).shares_received = 2 ∧
    ((shareData env2 1 sZ pZ).1.users 0).shares_received = 1 := by
  refine ⟨?_, ?_, ?_, ?_, ?_⟩
  · with_unfolding_all rfl
  · with_unfolding_all rfl
  · with_unfolding_all rfl
  · with_unfolding_all rfl
  · with_unfolding_all rfl

/-! ### Claim C7 -/

/-- Claim C7: the claim states that no self-loop and no duplicate
edge is ever created.  The initial network generator violates this:
because line 60 binds `targets` to the `active_users` list itself,
the `append` of line 68 puts the new node into its own target list in
the first loop iteration, and lines 69-71 then connect node `m` to
itself twice.  In the concrete three-node network `envW` (built with
`n = 3`, `m = 1`), node `1` has the friends list `[0, 1, 1]`: a
self-loop, recorded twice. -/
theorem prepareNetwork_selfloop :
    (envW.users 1).friends = [0, 1, 1] ∧
    1 ∈ (envW.users 1).friends ∧
    ¬ (envW.users 1).friends.Nodup := by
  have h : (envW.users 1).friends = [0, 1, 1] := by with_unfolding_all rfl
  exact ⟨h, by rw [h]; decide, by rw [h]; decide⟩

/-! ### Claim C8, the counterexample side -/

/-- Counterexample to claim C8 as stated: on the all-zero stream the
role model drawn for the new user `2` is user `0` (with one friend,
so `k = 1`) and the sampled friend set is `{0}` — the role model
itself.  Line 212 reads `len(role_model.friends)` AFTER the edge
insertion of lines 210-211, so `repeated_nodes` receives two copies
of the new node plus the one new friend: it grows from length `2` to
length `5`, i.e. by `2 * k + 1 = 3` entries, not by the
`2 * |role_model.friends| = 2` entries the claim states. -/
theorem addOneUser_repeated_counterexample :
    envC8.repeated_nodes.length = 2 ∧
    (envC8.users 0).friends.length = 1 ∧
    (addOneUser 4 envC8 sZ pZ).map (fun ep => ep.1.repeated_nodes)
      = some [0, 1, 2, 2, 0] ∧
    (addOneUser 4 envC8 sZ pZ).map (fun ep => ep.1.repeated_nodes.length)
      = some 5 ∧
    (addOneUser 4 envC8 sZ pZ).map (fun ep => (ep.1.users 2).friends)
      = some [0] := by
  refine ⟨rfl, by decide, ?_, ?_, ?_⟩
  · with_unfolding_all rfl
  · with_unfolding_all rfl
  · with_unfolding_all rfl

/-! ### Claim C6 -/

/-- Claim C6: at every observation point, every user in
`active_users` has `active = true` and `left = -1`, every user in
`inactive_users` has `active = false` and `left ≥ joined`, the two
lists are disjoint; and once a user has been deactivated it stays in
`inactive_users`, never returns to `active_users`, keeps
`active = false`, and performs no further action (its self-written
counters `shares`, `share_ops`, `last_share`, `shares_downloaded` and
its stamps stay frozen across every further step). -/
theorem partition_invariant (cfg : Config) (s : RStream) (e : Env)
    (p : RPos) (h : Reach cfg s e p) :
    (∀ id ∈ e.active_users,
      (e.users id).active = true ∧ (e.users id).left = -1) ∧
    (∀ id ∈ e.inactive_users,
      (e.users id).active = false ∧
      ((e.users id).joined : Int) ≤ (e.users id).left) ∧
    (∀ id, ¬ (id ∈ e.active_users ∧ id ∈ e.inactive_users)) ∧
    (∀ (e' : Env) (p' : RPos), SimStep cfg s e p e' p' →
      ∀ id ∈ e.inactive_users,
        id ∈ e'.inactive_users ∧ id ∉ e'.active_users ∧
        (e'.users id).active = false ∧ frozen e e' id) := by
  have hwf := Reach_WF cfg s e p h
  refine ⟨hwf.actA, hwf.actI, ?_, ?_⟩
  · intro id hid
    exact hwf.disj id hid.1 hid.2
  · intro e' p' hstep id hmem
    have hwf' := SimStep_WF cfg s e p e' p' hwf hstep
    obtain ⟨hin, hfr⟩ := SimStep_inact cfg s e p e' p' hwf hstep id hmem
    refine ⟨hin, ?_, (hwf' |>.actI id hin).1, hfr⟩
    intro hact
    exact hwf' |>.disj id hact hin

/-- Witness for C6 at the concrete prepared network `envW`. -/
theorem partition_invariant_witness :
    (∀ id ∈ envW.active_users,
      (envW.users id).active = true ∧ (envW.users id).left = -1) ∧
    (∀ id ∈ envW.inactive_users,
      (envW.users id).active = false ∧
      ((envW.users id).joined : Int) ≤ (envW.users id).left) ∧
    (∀ id, ¬ (id ∈ envW.active_users ∧ id ∈ envW.inactive_users)) ∧
    (∀ (e' : Env) (p' : RPos), SimStep cfgW sZ envW posW e' p' →
      ∀ id ∈ envW.inactive_users,
        id ∈ e'.inactive_users ∧ id ∉ e'.active_users ∧
        (e'.users id).active = false ∧ frozen envW e' id) :=
  partition_invariant cfgW sZ envW posW
    (Reach.init pZ envW posW (by with_unfolding_all rfl))

/-! ### Claim C10 -/

/-- Claim C10: across any step of a run from a reachable state, every
friends list of every user — active or inactive — is an initial
segment of its successor (entries are only ever appended, never
removed), so every degree is non-decreasing; and `quit_application`
leaves every friends list, including that of the quitting user, exactly
unchanged.  Only `repeated_nodes` is compacted, never graph edges. -/
theorem friends_never_removed (cfg : Config) (s : RStream) (e : Env)
    (p : RPos) (e' : Env) (p' : RPos) (h : Reach cfg s e p)
    (hstep : SimStep cfg s e p e' p') :
    (∀ id, (e.users id).friends <+: (e'.users id).friends) ∧
    (∀ id, ((e.users id).friends).length ≤ ((e'.users id).friends).length) ∧
    (∀ (e0 : Env) (a : Nat) (s0 : RStream) (p0 : RPos) (id : Nat),
      ((quitApplication e0 a s0 p0).1.users id).friends
        = (e0.users id).friends) := by
  have hwf := Reach_WF cfg s e p h
  have hg := SimStep_grow cfg s e p e' p' hwf hstep
  refine ⟨hg, ?_, ?_⟩
  · intro id
    exact (hg id).length_le
  · intro e0 a s0 p0 id
    exact quitApplication_friends_eq e0 a s0 p0 id

/-- Witness for C10 at the compaction step on `envW`. -/
theorem friends_never_removed_witness :
    (∀ id, (envW.users id).friends <+: ((compact envW).users id).friends) ∧
    (∀ id, ((envW.users id).friends).length
      ≤ (((compact envW).users id).friends).length) ∧
    (∀ (e0 : Env) (a : Nat) (s0 : RStream) (p0 : RPos) (id : Nat),
      ((quitApplication e0 a s0 p0).1.users id).friends
        = (e0.users id).friends) :=
  friends_never_removed cfgW sZ envW posW (compact envW) posW
    (Reach.init pZ envW posW (by with_unfolding_all rfl))
    (SimStep.bound envW posW)

/-! ### Claim C2, the amended statement -/

/-- Claim C2 (amended): whenever `share_data` fires for a user whose
friends list is duplicate-free and does not contain the user itself —
which holds for every user except the node carrying the generator's
aliasing self-loop — the action has exactly the claimed effect:
`shares` rises by `1 + |friends|`, `share_ops` by one, `last_share`
becomes the current time, the inbox is flushed and zeroed, every
friend has its `shares_received` rise by exactly one, every other user is
untouched, and the total `shares_received` increase across all other
users equals the number of friends. -/
theorem shareData_fire_effects (e : Env) (id : Nat) (s : RStream)
    (p : RPos)
    (hnd : (e.users id).friends.Nodup)
    (hself : id ∉ (e.users id).friends)
    (hbnd : ∀ f ∈ (e.users id).friends, f < e.nextId)
    (hfire : s.fs p.fp < shareThreshold e.now (e.users id)) :
    ((shareData e id s p).1.users id).shares
        = (e.users id).shares + 1 + (e.users id).friends.length ∧
    ((shareData e id s p).1.users id).share_ops
        = (e.users id).share_ops + 1 ∧
    ((shareData e id s p).1.users id).last_share = e.now ∧
    ((shareData e id s p).1.users id).shares_downloaded
        = (e.users id).shares_downloaded + (e.users id).shares_received ∧
    ((shareData e id s p).1.users id).shares_received = 0 ∧
    (∀ f ∈ (e.users id).friends,
      ((shareData e id s p).1.users f).shares_received
        = (e.users f).shares_received + 1) ∧
    (∀ v, v ∉ (e.users id).friends → v ≠ id →
      (shareData e id s p).1.users v = e.users v) ∧
    (∑ v in (Finset.range e.nextId).erase id,
        (((shareData e id s p).1.users v).shares_received
          - (e.users v).shares_received))
      = (e.users id).friends.length := by
  have hcount0 : (e.users id).friends.count id = 0 :=
    List.count_eq_zero_of_not_mem hself
  unfold shareData
  simp only [nextF]
  rw [if_pos hfire]
  refine ⟨?_, ?_, ?_, ?_, ?_, ?_, ?_, ?_⟩
  · rw [bumpReceived_users, setUser_users_self]
  · rw [bumpReceived_users, setUser_users_self]
  · rw [bumpReceived_users, setUser_users_self]
  · rw [bumpReceived_users, setUser_users_self]
  · rw [bumpReceived_users, setUser_users_self, hcount0]
  · intro f hf
    have hfne : f ≠ id := by
      intro hEq
      rw [hEq] at hf
      exact hself hf
    rw [bumpReceived_users, setUser_users_ne _ _ _ _ hfne,
      List.count_eq_one_of_mem hnd hf]
  · intro v hv hvne
    rw [bumpReceived_users, setUser_users_ne _ _ _ _ hvne,
      List.count_eq_zero_of_not_mem hv]
    rfl
  · have hterm : ∀ v ∈ (Finset.range e.nextId).erase id,
        ((bumpReceived (setUser e id
          { e.users id with
            shares_downloaded :=
              (e.users id).shares_downloaded + (e.users id).shares_received,
            shares_received := 0,
            shares := (e.users id).shares + 1 + (e.users id).friends.length,
            share_ops := (e.users id).share_ops + 1,
            last_share := e.now }) (e.users id).friends).users v).shares_received
          - (e.users v).shares_received
        = if v ∈ (e.users id).friends then 1 else 0 := by
      intro v hv
      have hvne : v ≠ id := (Finset.mem_erase.mp hv).1
      rw [bumpReceived_users, setUser_users_ne _ _ _ _ hvne]
      by_cases hvf : v ∈ (e.users id).friends
      · rw [if_pos hvf, List.count_eq_one_of_mem hnd hvf]
        exact Nat.add_sub_cancel_left _ _
      · rw [if_neg hvf, List.count_eq_zero_of_not_mem hvf]
        exact Nat.add_sub_cancel_left _ _
    rw [Finset.sum_congr rfl hterm]
    rw [Finset.sum_boole]
    have hfilter : ((Finset.range e.nextId).erase id).filter
        (fun v => v ∈ (e.users id).friends)
        = (e.users id).friends.toFinset := by
      ext x
      simp only [Finset.mem_filter, Finset.mem_erase, Finset.mem_range,
        List.mem_toFinset]
      constructor
      · intro hx
        exact hx.2
      · intro hx
        refine ⟨⟨?_, hbnd x hx⟩, hx⟩
        intro hEq
        rw [hEq] at hx
        exact hself hx
    rw [hfilter]
    simp [List.toFinset_card_of_nodup hnd]

/-- Witness for the amended C2 at the state `envC8`: user `0` has the
single friend `1`, no self-loop and no duplicate, and its share fires
on the zero draw. -/
theorem shareData_fire_effects_witness :
    ((shareData envC8 0 sZ pZ).1.users 0).shares
        = (envC8.users 0).shares + 1 + (envC8.users 0).friends.length ∧
    ((shareData envC8 0 sZ pZ).1.users 0).share_ops
        = (envC8.users 0).share_ops + 1 ∧
    ((shareData envC8 0 sZ pZ).1.users 0).last_share = envC8.now ∧
    ((shareData envC8 0 sZ pZ).1.users 0).shares_downloaded
        = (envC8.users 0).shares_downloaded
          + (envC8.users 0).shares_received ∧
    ((shareData envC8 0 sZ pZ).1.users 0).shares_received = 0 ∧
    (∀ f ∈ (envC8.users 0).friends,
      ((shareData envC8 0 sZ pZ).1.users f).shares_received
        = (envC8.users f).shares_received + 1) ∧
    (∀ v, v ∉ (envC8.users 0).friends → v ≠ 0 →
      (shareData envC8 0 sZ pZ).1.users v = envC8.users v) ∧
    (∑ v in (Finset.range envC8.nextId).erase 0,
        (((shareData envC8 0 sZ pZ).1.users v).shares_received
          - (envC8.users v).shares_received))
      = (envC8.users 0).friends.length :=
  shareData_fire_effects envC8 0 sZ pZ (by decide) (by decide)
    (by decide) (by norm_num [sZ, pZ, shareThreshold, envC8, noUser])

/-! ### Claim C8, the amended statement -/

/-- Claim C8 (amended): for every user added by one growth step, the
role model is an element of the current `active_users` list, the new
user receives exactly `|role_model.friends|` distinct active friends
sampled from `repeated_nodes`, every new edge is inserted in both
directions, and a role model with zero friends yields a new user with
zero edges; `repeated_nodes` however grows by
`2 * |role_model.friends| + 1` entries — not `2 * |role_model.friends|`
— when the role model is itself among the sampled friends, because
line 212 measures the role model friends list after the new edge was
inserted. -/
theorem addUsers_growth_attach (fuel : Nat) (e : Env) (s : RStream)
    (p : RPos) (e' : Env) (p' : RPos)
    (hbndA : ∀ x ∈ e.active_users, x < e.nextId)
    (hbndR : ∀ x ∈ e.repeated_nodes, x < e.nextId)
    (hsome : addOneUser fuel e s p = some (e', p')) :
    ∃ (rm : Nat) (nf : Finset Nat),
      rm ∈ e.active_users ∧ (e.users rm).active = true ∧
      nf.card = (e.users rm).friends.length ∧
      (∀ f ∈ nf, (e.users f).active = true ∧ f ∈ e.repeated_nodes) ∧
      (e'.users e.nextId).friends.Nodup ∧
      (e'.users e.nextId).friends.toFinset = nf ∧
      (e'.users e.nextId).friends.length = (e.users rm).friends.length ∧
      (∀ f ∈ nf, e.nextId ∈ (e'.users f).friends) ∧
      e'.repeated_nodes.length = e.repeated_nodes.length
        + 2 * (e.users rm).friends.length
        + (if rm ∈ nf then 1 else 0) ∧
      ((e.users rm).friends.length = 0 → (e'.users e.nextId).friends = []) ∧
      e'.active_users = e.active_users ++ [e.nextId] ∧
      e'.nextId = e.nextId + 1 := by
  unfold addOneUser at hsome
  split at hsome
  · exact absurd hsome (by simp)
  · rename_i rp hr1
    split at hsome
    · exact absurd hsome (by simp)
    · rename_i rm rest hsort
      split at hsome
      · exact absurd hsome (by simp)
      · rename_i np hr2
        rw [Option.some_inj, Prod.mk.injEq] at hsome
        rw [← hsome.1]
        set nfl := np.1.sort (· ≤ ·) with hnfl
        obtain ⟨hc1, hmem1⟩ := randomSubset_sound _ _ _ _ _ _ _ _ hr1
        obtain ⟨hc2, hmem2⟩ := randomSubset_sound _ _ _ _ _ _ _ _ hr2
        have hrm_in : rm ∈ rp.1 := by
          rw [← Finset.mem_sort (· ≤ ·), hsort]
          exact List.mem_cons_self rm rest
        have hrmA : rm ∈ e.active_users := by
          have := (hmem1 rm hrm_in).2
          rwa [spawn_active] at this
        have hrmlt : rm < e.nextId := hbndA rm hrmA
        have hrmne : rm ≠ e.nextId := by omega
        have hrmu : (spawn e).users rm = e.users rm := by
          rw [spawn_users, if_neg hrmne]
        have hnfl_np : ∀ f ∈ nfl, f ∈ np.1 := by
          intro f hf
          rw [hnfl, Finset.mem_sort] at hf
          exact hf
        have hnp_nfl : ∀ f ∈ np.1, f ∈ nfl := by
          intro f hf
          rw [hnfl, Finset.mem_sort]
          exact hf
        have hnp_rep : ∀ f ∈ np.1, f ∈ e.repeated_nodes := by
          intro f hf
          have := (hmem2 f hf).2
          rwa [spawn_repeated] at this
        have hnp_lt : ∀ f ∈ np.1, f < e.nextId := by
          intro f hf
          exact hbndR f (hnp_rep f hf)
        have hnp_act : ∀ f ∈ np.1, (e.users f).active = true := by
          intro f hf
          have hne : f ≠ e.nextId := by
            have := hnp_lt f hf; omega
          have := (hmem2 f hf).1
          rwa [spawn_users, if_neg hne] at this
        have hnid_notin : e.nextId ∉ nfl := by
          intro hmem
          have := hnp_lt _ (hnfl_np _ hmem); omega
        have hcount0 : nfl.count e.nextId = 0 :=
          List.count_eq_zero_of_not_mem hnid_notin
        have hnfl_nd : nfl.Nodup := by
          rw [hnfl]; exact Finset.sort_nodup _ np.1
        have hnfl_len : nfl.length = np.1.card := by
          rw [hnfl]; exact Finset.length_sort _
        obtain ⟨hnow, hnext, hact, hinact⟩ :=
          attach_shape (spawn e) e.nextId rm nfl
        have hrep' : (attach (spawn e) e.nextId rm nfl).repeated_nodes
            = e.repeated_nodes
              ++ List.replicate ((e.users rm).friends.length
                  + nfl.count rm) e.nextId
              ++ nfl := by
          rw [attach_repeated _ _ _ _ hrmne, hrmu, spawn_repeated]
        have huser_nid : (attach (spawn e) e.nextId rm nfl).users e.nextId
            = { initUser e.now with friends := nfl } := by
          rw [attach_users, if_pos rfl, spawn_users, if_pos rfl, hcount0]
          simp [initUser]
        have hk2 : np.1.card = (e.users rm).friends.length := by
          rw [hc2, hrmu]
        refine ⟨rm, np.1, hrmA, ?_, hk2, ?_, ?_, ?_, ?_, ?_, ?_, ?_, ?_, ?_⟩
        · have := (hmem1 rm hrm_in).1
          rwa [hrmu] at this
        · intro f hf
          exact ⟨hnp_act f hf, hnp_rep f hf⟩
        · rw [huser_nid]
          exact hnfl_nd
        · rw [huser_nid]
          rw [hnfl]
          exact Finset.sort_toFinset _ np.1
        · rw [huser_nid]
          show nfl.length = (e.users rm).friends.length
          rw [hnfl_len, hk2]
        · intro f hf
          have hfne : f ≠ e.nextId := by
            have := hnp_lt f hf; omega
          rw [attach_users, if_neg hfne, spawn_users, if_neg hfne]
          show e.nextId ∈ (e.users f).friends
            ++ List.replicate (nfl.count f) e.nextId
          refine List.mem_append.mpr (Or.inr ?_)
          rw [List.count_eq_one_of_mem hnfl_nd (hnp_nfl f hf)]
          exact List.mem_replicate.mpr ⟨one_ne_zero, rfl⟩
        · rw [hrep']
          have hmemiff : rm ∈ nfl ↔ rm ∈ np.1 := by
            rw [hnfl]; exact Finset.mem_sort _
          by_cases hrmf : rm ∈ np.1
          · rw [if_pos hrmf]
            rw [List.count_eq_one_of_mem hnfl_nd (hmemiff.mpr hrmf)]
            simp only [List.length_append, List.length_replicate]
            rw [hnfl_len, hk2]
            omega
          · rw [if_neg hrmf]
            rw [List.count_eq_zero_of_not_mem
              (fun hc => hrmf (hmemiff.mp hc))]
            simp only [List.length_append, List.length_replicate]
            rw [hnfl_len, hk2]
            omega
        · intro hzero
          rw [huser_nid]
          show nfl = []
          rw [← List.length_eq_zero]
          rw [hnfl_len, hk2, hzero]
        · rw [hact, spawn_active]
        · rw [hnext, spawn_nextId]

/-- Witness for the amended C8: the concrete growth step on `envC8`
(role model `0`, sampled friends `{0}`, so the `+1` branch of the
`repeated_nodes` accounting is exercised). -/
theorem addUsers_growth_attach_witness :
    ∃ (rm : Nat) (nf : Finset Nat),
      rm ∈ envC8.active_users ∧ (envC8.users rm).active = true ∧
      nf.card = (envC8.users rm).friends.length ∧
      (∀ f ∈ nf, (envC8.users f).active = true ∧
        f ∈ envC8.repeated_nodes) ∧
      (envC8'.users envC8.nextId).friends.Nodup ∧
      (envC8'.users envC8.nextId).friends.toFinset = nf ∧
      (envC8'.users envC8.nextId).friends.length
        = (envC8.users rm).friends.length ∧
      (∀ f ∈ nf, envC8.nextId ∈ (envC8'.users f).friends) ∧
      envC8'.repeated_nodes.length = envC8.repeated_nodes.length
        + 2 * (envC8.users rm).friends.length
        + (if rm ∈ nf then 1 else 0) ∧
      ((envC8.users rm).friends.length = 0 →
        (envC8'.users envC8.nextId).friends = []) ∧
      envC8'.active_users = envC8.active_users ++ [envC8.nextId] ∧
      envC8'.nextId = envC8.nextId + 1 :=
  addUsers_growth_attach 4 envC8 sZ pZ envC8' posC8'
    (by decide) (by decide) (by with_unfolding_all rfl)

/-- Witness for C9: the user of `envC9` fires its share on the zero
draw. -/
theorem lastShare_init_and_certain_share_witness :
    (initUser 5).last_share = 0 ∧
    shareThreshold 7 (initUser 5) = 1/10 + ((7 : Nat) : ℚ) * (1/10) ∧
    ((shareData envC9 0 sZ pZ).1.users 0).share_ops
      = (envC9.users 0).share_ops + 1 :=
  ⟨lastShare_init_and_certain_share.1 5,
   lastShare_init_and_certain_share.2.1 7 (initUser 5) rfl,
   lastShare_init_and_certain_share.2.2 envC9 0 sZ pZ rfl (by decide)
     (by norm_num [sZ]) (by norm_num [sZ])⟩

end Denul
